import Mathlib

/-!
# git-all-secrets: the clone/scan orchestrator of `main.go`

A shallow embedding of the orchestrator in `src/main.go` and the properties
proved about it.

Conventions of the embedding.

* Go strings and file contents are byte sequences.  They are modelled as
  `List Char` (`Str`), a literal `"abc"` of the source being `"abc".toList`.
  Every literal of the source is ASCII, so bytes and characters coincide on them.
* `panic` (raised by `check` on every non-nil error, or by an index out of
  range) is not recovered anywhere in the source, so it ends the process;
  `os.Exit(2)` ends the process as well.  Functions that can end the process
  return an `Option`, an `Except` or an explicit outcome type.
* Goroutines, the buffered channel `executionQueue` and `sync.WaitGroup`
  counters are modelled by explicit states and a step function; a blocked
  operation is a step that is not enabled (`none`).
-/

namespace GitAllSecrets

/-! ## Part I: definitions -/

/-- Go `string` / file contents. -/
abbrev Str := List Char

/-! ### `enqueueJob` and `executionQueue` (main.go 38-45, 671) -/

/-- Accounting state of `enqueueJob` over the buffered channel `executionQueue`. -/
structure Pool where
  /-- `len(executionQueue)`: tokens sent and not yet received, the reserved slots -/
  queue : Nat
  /-- goroutines created by `go func()` whose `item()` has not been entered yet -/
  spawned : Nat
  /-- goroutines that are inside `item()` -/
  running : Nat
  /-- goroutines whose `item()` has returned, before `<- executionQueue` -/
  returned : Nat
deriving DecidableEq, Repr

/-- The four atomic steps of `enqueueJob`. -/
inductive PoolEvent
  /-- a caller runs `executionQueue <- true` and then `go func() ...` -/
  | submit
  /-- a spawned goroutine enters `item()` -/
  | start
  /-- `item()` returns -/
  | finish
  /-- the goroutine runs `<- executionQueue` -/
  | release
deriving DecidableEq, Repr

/-- State after `executionQueue = make(chan bool, *threads)`: nothing sent. -/
def Pool.init : Pool := { queue := 0, spawned := 0, running := 0, returned := 0 }

/-- One step of the accounting for a channel of capacity `N`; `none` when the
operation is not enabled (a send on a full channel blocks, a receive on an
empty channel blocks, no goroutine is at the required program point). -/
def Pool.step (N : Nat) (p : Pool) : PoolEvent → Option Pool
  | .submit =>
      if p.queue < N then some { p with queue := p.queue + 1, spawned := p.spawned + 1 }
      else none
  | .start =>
      if 0 < p.spawned then some { p with spawned := p.spawned - 1, running := p.running + 1 }
      else none
  | .finish =>
      if 0 < p.running then some { p with running := p.running - 1, returned := p.returned + 1 }
      else none
  | .release =>
      if 0 < p.returned ∧ 0 < p.queue then
        some { p with returned := p.returned - 1, queue := p.queue - 1 }
      else none

/-- Runs a sequence of events; an event that is not enabled does not happen. -/
def Pool.exec (N : Nat) (p : Pool) (evs : List PoolEvent) : Pool :=
  evs.foldl (fun q e => ((Pool.step N q e).getD q)) p

/-- Every reserved slot belongs to exactly one goroutine of `enqueueJob`. -/
def Pool.Balanced (N : Nat) (p : Pool) : Prop :=
  p.queue = p.spawned + p.running + p.returned ∧ p.queue ≤ N

/-! ### Errors and `check` (main.go 53-61) -/

/-- A non-nil Go `error` value, identified by its message. -/
abbrev GoError := Str

/-- `check(e)`: panics with `e` when `e != nil`.  When `e == nil` both type
assertions of the `else if` branches yield `ok == false`, so nothing happens.
`Except.error e` is the unrecovered panic. -/
def check (e : Option GoError) : Except GoError Unit :=
  match e with
  | some err => Except.error err
  | none => Except.ok ()

/-! ### Listed resources -/

/-- The fields of `github.Repository` that the source dereferences. -/
structure Repository where
  Name : Str
  CloneURL : Str
  SSHURL : Str
  Fork : Bool
  /-- `*repo.Owner.Login` -/
  OwnerLogin : Str
deriving DecidableEq, Repr

/-- The fields of `github.Gist` that the source dereferences. -/
structure Gist where
  ID : Str
  GitPullURL : Str
deriving DecidableEq, Repr

/-! ### `gitclone` and `executeclone` (main.go 63-104) -/

/-- The external command `/usr/bin/git clone cloneURL repoName`: the value of
`cmd.Run()`, `none` for `nil`. -/
abbrev GitCommand := Str → Str → Option GoError

/-- `gitclone` without its `WaitGroup`: `err := cmd.Run(); check(err)`. -/
def gitclone (git : GitCommand) (cloneURL repoName : Str) : Except GoError Unit :=
  check (git cloneURL repoName)

/-- The submission decision of `executeclone`: the arguments `(urlToClone, directory)`
of the `gitclone` it hands to `enqueueJob`, or `none` when it prints the
"is a fork" line and submits nothing. -/
def executeclone (cloneForks scanPrivateReposOnly : Bool) (repo : Repository)
    (directory : Str) : Option (Str × Str) :=
  let urlToClone :=
    match scanPrivateReposOnly with
    | false => repo.CloneURL
    | true => repo.SSHURL
  if !cloneForks && repo.Fork then none
  else some (urlToClone, directory)

/-- The `executeclone` calls that `cloneorgrepos` submits, one per listed
repository, in listing order (main.go 127-134). -/
def cloneorgreposCalls (orgRepos : List Repository) : List (Repository × Str) :=
  orgRepos.map (fun repo => (repo, "/tmp/repos/org/".toList ++ repo.Name))

/-- The `executeclone` calls that `cloneuserrepos` submits (main.go 173-180). -/
def cloneuserreposCalls (user : Str) (userRepos : List Repository) : List (Repository × Str) :=
  userRepos.map (fun userRepo =>
    (userRepo, "/tmp/repos/users/".toList ++ user ++ "/".toList ++ userRepo.Name))

/-- The `executeclone` calls that `cloneTeamRepos` submits (main.go 637-644). -/
def cloneTeamReposCalls (teamRepos : List Repository) : List (Repository × Str) :=
  teamRepos.map (fun repo => (repo, "/tmp/repos/team/".toList ++ repo.Name))

/-- The `gitclone` calls that `cloneusergists` submits (main.go 214-224). -/
def cloneusergistsCalls (user : Str) (userGists : List Gist) : List (Str × Str) :=
  userGists.map (fun userGist =>
    (userGist.GitPullURL, "/tmp/repos/users/".toList ++ user ++ "/".toList ++ userGist.ID))

/-- The retrievals (`gitclone` arguments) submitted by a list of `executeclone` calls. -/
def submittedRetrievals (cloneForks scanPrivateReposOnly : Bool)
    (calls : List (Repository × Str)) : List (Str × Str) :=
  calls.filterMap (fun c => executeclone cloneForks scanPrivateReposOnly c.1 c.2)

/-! ### `strings.Split` -/

/-- `strings.Split(s, sep)` for a separator of one byte, which is what every call
of the source passes (`"_"`, `"@"`, `"/"`, `":"`, `"."`): the fields between
the occurrences of `sep`; a string without `sep` (the empty one too) gives
one field. -/
def Split : Str → Char → List Str
  | [], _ => [[]]
  | c :: cs, sep =>
    if c = sep then [] :: Split cs sep
    else
      match Split cs sep with
      | [] => [[c]]
      | f :: fs => (c :: f) :: fs

/-! ### `checkflags` (main.go 461-573) -/

/-- How a call that may end the process comes back. -/
inductive Outcome
  /-- the function returned (`return nil`) -/
  | returned
  /-- `os.Exit(code)` -/
  | exit (code : Nat)
  /-- an unrecovered `panic` (from `check`, an index out of range) -/
  | panicked
deriving DecidableEq, Repr

/-- `stringInSlice(a, list)`: some listed repository has `a` as SSH or clone URL. -/
def stringInSlice (a : Str) (list : List Repository) : Bool :=
  list.any (fun b => b.SSHURL == a || b.CloneURL == a)

/-- What `checkflags` reads from outside the process in its
`scanPrivateReposOnly` branch. -/
structure FlagEnv where
  /-- `os.Stat("/root/.ssh/id_rsa")` returned `err == nil` -/
  sshKeyStatOk : Bool
  /-- the repositories accumulated by the paged `client1.Repositories.List(ctx1, "", opt3)`
  loop (main.go 525-533); `none` when a page fetch returns an error -/
  ownedRepos : Option (List Repository)

/-- `checkflags`, with the same parameters in the same order. -/
def checkflags (env : FlagEnv) (token org user repoURL gistURL teamName : Str)
    (scanPrivateReposOnly orgOnly : Bool) (toolName : Str) : Outcome :=
  if token = [] then Outcome.exit 2
  else if org = [] ∧ user = [] ∧ repoURL = [] ∧ gistURL = [] then Outcome.exit 2
  else if org ≠ [] ∧ (user ≠ [] ∨ repoURL ≠ [] ∨ gistURL ≠ []) then Outcome.exit 2
  else if user ≠ [] ∧ (org ≠ [] ∨ repoURL ≠ [] ∨ gistURL ≠ []) then Outcome.exit 2
  else if repoURL ≠ [] ∧ (org ≠ [] ∨ user ≠ [] ∨ gistURL ≠ []) then Outcome.exit 2
  else if gistURL ≠ [] ∧ (org ≠ [] ∨ repoURL ≠ [] ∨ user ≠ []) then Outcome.exit 2
  else if teamName ≠ [] ∧ org = [] then Outcome.exit 2
  else if orgOnly = true ∧ org = [] then Outcome.exit 2
  else if scanPrivateReposOnly = true ∧ user = [] ∧ repoURL = [] then Outcome.exit 2
  else if scanPrivateReposOnly = true ∧ (user ≠ [] ∨ repoURL ≠ []) then
    if env.sshKeyStatOk = false then Outcome.exit 2
    else
      match env.ownedRepos with
      | none => Outcome.panicked
      | some userRepos =>
        if user ≠ [] then
          match userRepos with
          | [] => Outcome.panicked
          | first :: _ => if first.OwnerLogin = user then Outcome.returned else Outcome.exit 2
        else if repoURL ≠ [] then
          if stringInSlice repoURL userRepos = true then Outcome.returned else Outcome.exit 2
        else Outcome.returned
  else if scanPrivateReposOnly = true ∧ (org ≠ [] ∨ gistURL ≠ []) then Outcome.exit 2
  else if ¬ (toolName = "thog".toList ∨ toolName = "gitsecrets".toList ∨
      toolName = "repo-supervisor".toList ∨ toolName = "all".toList) then Outcome.exit 2
  else if repoURL ≠ [] ∧ scanPrivateReposOnly = false then
    if (Split repoURL '@').head? = some "git".toList then Outcome.exit 2
    else Outcome.returned
  else Outcome.returned

/-- The number of non-empty scope options among `org`, `user`, `repoURL`, `gistURL`. -/
def scopeCount (org user repoURL gistURL : Str) : Nat :=
  ([org, user, repoURL, gistURL].filter (fun s => decide (s ≠ []))).length

/-! ### Scan runners and `runGitTools` (main.go 251-313) -/

/-- The three external scanners. -/
inductive Scanner
  | gitsecrets
  | thog
  | reposupervisor
deriving DecidableEq, Repr

/-- The name of the per-tool results directory under `/tmp/results/`. -/
def Scanner.dir : Scanner → Str
  | .gitsecrets => "gitsecrets".toList
  | .thog => "thog".toList
  | .reposupervisor => "repo-supervisor".toList

/-- The file name that each runner builds after its results directory:
`orgoruser + "_" + reponame + "_" + uuid.NewV4().String() + ".txt"`, with `u`
the string of the fresh UUID. -/
def artifactFile (orgoruser reponame u : Str) : Str :=
  orgoruser ++ "_".toList ++ reponame ++ "_".toList ++ u ++ ".txt".toList

/-- One invocation of an external scanner: `./rungitsecrets.sh filepath out`,
`python truffleHog.py ... filepath` with stdout directed to `out`,
`./runreposupervisor.sh filepath out`. -/
structure ScanCmd where
  tool : Scanner
  filepath : Str
  outputFile : Str
deriving DecidableEq, Repr

/-- What the scan runners get from outside the process. -/
structure ScanEnv where
  /-- the string of the UUID that `uuid.NewV4()` returns in the runner of a tool -/
  uuid : Scanner → Str
  /-- `os.OpenFile(outputFile1, os.O_CREATE|os.O_RDWR, 0644)`: its error, `none` for `nil` -/
  openFile : Str → Option GoError
  /-- `cmd.Run()` of the scanner command: its error, `none` for `nil` -/
  run : ScanCmd → Option GoError

/-- The commands a scan step has invoked, and the panic that ended it if any. -/
structure Ran where
  invoked : List ScanCmd
  panic : Option GoError
deriving DecidableEq, Repr

/-- Sequencing of two steps: the second runs only when the first did not panic. -/
def Ran.andThen (a : Ran) (b : Unit → Ran) : Ran :=
  match a.panic with
  | some e => { invoked := a.invoked, panic := some e }
  | none => { invoked := a.invoked ++ (b ()).invoked, panic := (b ()).panic }

/-- `cmd2` of `runGitsecrets`: `./rungitsecrets.sh filepath outputFile2`. -/
def cmd2 (env : ScanEnv) (filepath reponame orgoruser : Str) : ScanCmd :=
  let outputFile2 := "/tmp/results/gitsecrets/".toList ++
    artifactFile orgoruser reponame (env.uuid Scanner.gitsecrets)
  ⟨Scanner.gitsecrets, filepath, outputFile2⟩

/-- `cmd1` of `runTrufflehog`: the truffleHog command on `filepath`, stdout to `outputFile1`. -/
def cmd1 (env : ScanEnv) (filepath reponame orgoruser : Str) : ScanCmd :=
  let outputFile1 := "/tmp/results/thog/".toList ++
    artifactFile orgoruser reponame (env.uuid Scanner.thog)
  ⟨Scanner.thog, filepath, outputFile1⟩

/-- `cmd3` of `runReposupervisor`: `./runreposupervisor.sh filepath outputFile3`. -/
def cmd3 (env : ScanEnv) (filepath reponame orgoruser : Str) : ScanCmd :=
  let outputFile3 := "/tmp/results/repo-supervisor/".toList ++
    artifactFile orgoruser reponame (env.uuid Scanner.reposupervisor)
  ⟨Scanner.reposupervisor, filepath, outputFile3⟩

/-- `runGitsecrets`: runs the command, then `check(err2)`. -/
def runGitsecrets (env : ScanEnv) (filepath reponame orgoruser : Str) : Ran :=
  { invoked := [cmd2 env filepath reponame orgoruser],
    panic := env.run (cmd2 env filepath reponame orgoruser) }

/-- `runTrufflehog`: opens the output file (`check(fileErr)`), runs the command
with stdout directed to it, then `check(err1)`. -/
def runTrufflehog (env : ScanEnv) (filepath reponame orgoruser : Str) : Ran :=
  match env.openFile (cmd1 env filepath reponame orgoruser).outputFile with
  | some e => { invoked := [], panic := some e }
  | none =>
    { invoked := [cmd1 env filepath reponame orgoruser],
      panic := env.run (cmd1 env filepath reponame orgoruser) }

/-- `runReposupervisor`: runs the command, then `check(err3)`. -/
def runReposupervisor (env : ScanEnv) (filepath reponame orgoruser : Str) : Ran :=
  { invoked := [cmd3 env filepath reponame orgoruser],
    panic := env.run (cmd3 env filepath reponame orgoruser) }

/-- `runGitTools` without its `WaitGroup`: the `switch tool`.  Every runner
returns a nil error, so the `check(err)` after each call does nothing; a
selector outside the four cases runs nothing. -/
def runGitTools (env : ScanEnv) (tool filepath reponame orgoruser : Str) : Ran :=
  if tool = "all".toList then
    (runGitsecrets env filepath reponame orgoruser).andThen fun _ =>
      (runTrufflehog env filepath reponame orgoruser).andThen fun _ =>
        runReposupervisor env filepath reponame orgoruser
  else if tool = "gitsecrets".toList then runGitsecrets env filepath reponame orgoruser
  else if tool = "thog".toList then runTrufflehog env filepath reponame orgoruser
  else if tool = "repo-supervisor".toList then runReposupervisor env filepath reponame orgoruser
  else { invoked := [], panic := none }

/-! ### `toolsOutput`, `singletoolOutput`, `combineOutput` (main.go 331-436) -/

/-- An entry of `ioutil.ReadDir("/tmp/results/" + toolname + "/")` together
with the bytes that `io.Copy` reads from the opened file. -/
structure ResultFile where
  Name : Str
  content : Str
deriving DecidableEq, Repr

/-- The `linedelimiter` of `toolsOutput`: four string literals of dashes. -/
def linedelimiter : Str :=
  "----------------------------------------------------------------------------".toList ++
  "----------------------------------------------------------------------------".toList ++
  "----------------------------------------------------------------------------".toList ++
  "----------------------------------------------------------------------------".toList

/-- The header that `toolsOutput` writes for a file name (main.go 352-356):
`fname := strings.Split(f.Name(), "_")`, then `fname[0]` and `fname[1]`;
`none` is the index-out-of-range panic of `fname[1]`. -/
def headerLine (name : Str) : Option Str :=
  match Split name '_' with
  | orgoruserstr :: rnamestr :: _ =>
    some ("OrgorUser: ".toList ++ orgoruserstr ++ " RepoName: ".toList ++ rnamestr ++ "\n".toList)
  | _ => none

/-- The loop of `toolsOutput` over the listing; `of` is what has been written
to the output file so far, `none` a panic. -/
def toolsOutputLoop : List ResultFile → Str → Option Str
  | [], out => some out
  | f :: fs, out =>
    if f.content.length = 0 then toolsOutputLoop fs out
    else
      match headerLine f.Name with
      | none => none
      | some h => toolsOutputLoop fs (out ++ h ++ f.content ++ (linedelimiter ++ "\n".toList))

/-- `toolsOutput(toolname, of)` over the listing `results` of the tool directory. -/
def toolsOutput (toolname : Str) (results : List ResultFile) (out : Str) : Option Str :=
  toolsOutputLoop results (out ++ ("Tool: ".toList ++ toolname ++ "\n".toList))

/-- `singletoolOutput(toolname, of)` over the listing `results` of the tool directory. -/
def singletoolOutput : List ResultFile → Str → Option Str
  | [], out => some out
  | f :: fs, out =>
    if f.content.length = 0 then singletoolOutput fs out
    else singletoolOutput fs (out ++ f.content)

/-- `combineOutput(toolname, outputfile)`: the bytes of the output file, which
`os.Create` starts empty; `readDir` gives the listing of a directory path.
Errors of `os.Create`, `os.Open`, `Stat` and `io.Copy` are not modelled. -/
def combineOutput (readDir : Str → List ResultFile) (toolname : Str) : Option Str :=
  let listing := fun (tool : Str) => readDir ("/tmp/results/".toList ++ tool ++ "/".toList)
  if toolname = "all".toList then
    ["thog".toList, "gitsecrets".toList, "repo-supervisor".toList].foldlM
      (fun out tool => toolsOutput tool (listing tool) out) []
  else if toolname = "gitsecrets".toList then
    singletoolOutput (listing "gitsecrets".toList) []
  else if toolname = "thog".toList then
    singletoolOutput (listing "thog".toList) []
  else if toolname = "repo-supervisor".toList then
    singletoolOutput (listing "repo-supervisor".toList) []
  else some []

/-- A scan environment in which `./rungitsecrets.sh` exits non-zero and every
other command succeeds. -/
def gitsecretsFails : ScanEnv where
  uuid := fun _ => "6ba7b810-9dad-11d1-80b4-00c04fd430c8".toList
  openFile := fun _ => none
  run := fun c => if c.tool = Scanner.gitsecrets then some "exit status 1".toList else none

/-! ### The report as the specification words it -/

/-- An entry of the report for a non-empty artifact under selector "all": the
header line with the first two `_`-separated fields of the file name, the bytes
of the artifact, and the delimiter line of 304 dashes. -/
def reportEntry (f : ResultFile) : Str :=
  "OrgorUser: ".toList ++ (Split f.Name '_').getD 0 [] ++ " RepoName: ".toList ++
    (Split f.Name '_').getD 1 [] ++ "\n".toList ++ f.content ++
    (List.replicate 304 '-' ++ "\n".toList)

/-- The section of one tool: the line `Tool: <tool>` and one entry per
non-empty artifact, in listing order. -/
def reportSection (tool : Str) (results : List ResultFile) : Str :=
  "Tool: ".toList ++ tool ++ "\n".toList ++
    ((results.filter (fun f => decide (f.content ≠ []))).map reportEntry).flatten

/-- The report for selector "all": the sections of thog, gitsecrets and
repo-supervisor, in that order. -/
def reportAll (readDir : Str → List ResultFile) : Str :=
  reportSection "thog".toList (readDir "/tmp/results/thog/".toList) ++
  reportSection "gitsecrets".toList (readDir "/tmp/results/gitsecrets/".toList) ++
  reportSection "repo-supervisor".toList (readDir "/tmp/results/repo-supervisor/".toList)

/-- The report for a single-tool selector: the bytes of the non-empty
artifacts, concatenated in listing order. -/
def reportSingle (results : List ResultFile) : Str :=
  ((results.filter (fun f => decide (f.content ≠ []))).map (fun f => f.content)).flatten

/-- A results area with one non-empty and one empty thog artifact, and one
non-empty gitsecrets artifact. -/
def sampleResults (dir : Str) : List ResultFile :=
  if dir = "/tmp/results/thog/".toList then
    [⟨"acme_api_6ba7b810.txt".toList, "AKIA...\n".toList⟩, ⟨"acme_web_6ba7b811.txt".toList, []⟩]
  else if dir = "/tmp/results/gitsecrets/".toList then
    [⟨"acme_api_6ba7b812.txt".toList, "password=\n".toList⟩]
  else []

/-! ### Goroutines, slots and WaitGroups: the step model

The clone phase of `main` as a transition system.  The main goroutine runs a
list of instructions; every `enqueueJob` starts a job goroutine; the state
holds `len(executionQueue)`, the counters of the `sync.WaitGroup`s and the
program point of every goroutine.  A step is one atomic action of one
goroutine; a blocked action (`executionQueue <- true` on a full channel,
`Wait()` on a non-zero counter) is not enabled.  A `check` that panics in a job
runs the deferred `wg.Done()` and ends the process in the same step.  Slot
guards and the ending of the process only remove steps, so what holds for
every schedule here holds for every schedule of the program. -/

/-- A `sync.WaitGroup` of the run. -/
inductive WgRef
  /-- the WaitGroup declared by the `g`-th coordinator call of the main
  goroutine (`orgrepowg`, `teamrepowg`, `userrepowg`, `usergistclone`) -/
  | main (g : Nat)
  /-- the `orgclone` declared by the `executeclone` job number `j` -/
  | orgclone (j : Nat)
deriving DecidableEq, Repr

/-- Program points of a goroutine `func() { executeclone(...) ; <-executionQueue }`. -/
inductive ExecPc
  /-- created by `go func()`, `item()` not entered -/
  | spawned
  /-- after `orgclone.Add(1)`, at `executionQueue <- true` of the inner
  `enqueueJob`, about to submit `gitclone(urlToClone, directory, orgclone)` -/
  | reserving (urlToClone : Str)
  /-- at `orgclone.Wait()` -/
  | waiting
  /-- after `wg.Done()` and the return of `item()`, at `<-executionQueue` -/
  | returned
  /-- after `<-executionQueue` -/
  | finished
deriving DecidableEq, Repr

/-- Program points of a goroutine `func() { gitclone(...) ; <-executionQueue }`. -/
inductive GitPc
  /-- created by `go func()`, `item()` not entered -/
  | spawned
  /-- the clone succeeded, `wg.Done()` ran, at `<-executionQueue` -/
  | returned
  /-- the clone failed: `check` panicked (the deferred `wg.Done()` ran) -/
  | failed
  /-- after `<-executionQueue` -/
  | finished
deriving DecidableEq, Repr

/-- A job goroutine started by `enqueueJob`. -/
inductive Job
  /-- `executeclone(repo, directory, wg)` with `wg` the WaitGroup `main g` -/
  | executeclone (repo : Repository) (directory : Str) (g : Nat) (pc : ExecPc)
  /-- `gitclone(cloneURL, repoName, wg)` -/
  | gitclone (cloneURL repoName : Str) (wg : WgRef) (pc : GitPc)
deriving DecidableEq, Repr

/-- The job bodies that the main goroutine submits. -/
inductive Body
  | executeclone (repo : Repository) (directory : Str)
  | gitclone (cloneURL repoName : Str)
deriving DecidableEq, Repr

/-- The scan entry points called from `main` in organization mode. -/
inductive ScanCall
  | scanorgrepos
  | scanTeamRepos
  | scanforeachuser (user : Str)
deriving DecidableEq, Repr

/-- Instructions of the main goroutine. -/
inductive Instr
  /-- `wg.Add(1)` followed by `enqueueJob(func() { body(..., &wg) })`, `wg` being `main g` -/
  | submit (body : Body) (g : Nat)
  /-- `wg.Wait()` on `main g` -/
  | wait (g : Nat)
  /-- the main goroutine reaches the call of `scanorgrepos` / `scanTeamRepos`,
  or the submission of the job that calls `scanforeachuser` -/
  | scan (call : ScanCall)
  /-- `os.Exit(2)` -/
  | exit
deriving DecidableEq, Repr

/-- State of the transition system. -/
structure Sys where
  /-- `len(executionQueue)` -/
  queue : Nat
  /-- the counters of the WaitGroups -/
  wg : WgRef → Nat
  /-- the instructions the main goroutine still has to run -/
  prog : List Instr
  /-- the main goroutine has run the `wg.Add(1)` of the `submit` at the head of
  `prog` and is at the `executionQueue <- true` of its `enqueueJob` -/
  added : Bool
  /-- the job goroutines, in order of creation -/
  jobs : List Job
  /-- the scan calls reached so far, in order -/
  scans : List ScanCall
  /-- the process has ended (unrecovered panic or `os.Exit`) -/
  ended : Bool

/-- The parameters of a run that the clone phase reads. -/
structure RunConfig where
  /-- `*threads`, the capacity of `executionQueue` -/
  threads : Nat
  cloneForks : Bool
  scanPrivateReposOnly : Bool
  git : GitCommand

/-- A scheduling choice: which goroutine takes the next step. -/
inductive Action
  | main
  | job (i : Nat)
deriving DecidableEq, Repr

/-- `wg.Add(1)`. -/
def Sys.wgAdd (s : Sys) (w : WgRef) : WgRef → Nat :=
  fun x => if x = w then s.wg x + 1 else s.wg x

/-- `wg.Done()`. -/
def Sys.wgDone (s : Sys) (w : WgRef) : WgRef → Nat :=
  fun x => if x = w then s.wg x - 1 else s.wg x

/-- The job goroutine that `enqueueJob` starts for a submitted body. -/
def Body.toJob (g : Nat) : Body → Job
  | Body.executeclone repo directory => Job.executeclone repo directory g ExecPc.spawned
  | Body.gitclone cloneURL repoName => Job.gitclone cloneURL repoName (WgRef.main g) GitPc.spawned

/-- One step of the main goroutine. -/
def stepMain (cfg : RunConfig) (s : Sys) : Option Sys :=
  match s.prog with
  | [] => none
  | Instr.submit body g :: rest =>
    if s.added = false then
      some { s with wg := s.wgAdd (WgRef.main g), added := true }
    else if s.queue < cfg.threads then
      some { s with queue := s.queue + 1, jobs := s.jobs ++ [body.toJob g],
                    prog := rest, added := false }
    else none
  | Instr.wait g :: rest =>
    if s.wg (WgRef.main g) = 0 then some { s with prog := rest } else none
  | Instr.scan call :: rest =>
    some { s with scans := s.scans ++ [call], prog := rest }
  | Instr.exit :: _ => some { s with ended := true }

/-- One step of the job goroutine number `i`. -/
def stepJob (cfg : RunConfig) (s : Sys) (i : Nat) : Option Sys :=
  match s.jobs[i]? with
  | none => none
  | some (Job.executeclone repo directory g ExecPc.spawned) =>
    match executeclone cfg.cloneForks cfg.scanPrivateReposOnly repo directory with
    | none => some { s with jobs := s.jobs.set i (Job.executeclone repo directory g ExecPc.waiting) }
    | some c =>
      some { s with wg := s.wgAdd (WgRef.orgclone i),
                    jobs := s.jobs.set i (Job.executeclone repo directory g (ExecPc.reserving c.1)) }
  | some (Job.executeclone repo directory g (ExecPc.reserving urlToClone)) =>
    if s.queue < cfg.threads then
      some { s with queue := s.queue + 1,
                    jobs := s.jobs.set i (Job.executeclone repo directory g ExecPc.waiting) ++
                      [Job.gitclone urlToClone directory (WgRef.orgclone i) GitPc.spawned] }
    else none
  | some (Job.executeclone repo directory g ExecPc.waiting) =>
    if s.wg (WgRef.orgclone i) = 0 then
      some { s with wg := s.wgDone (WgRef.main g),
                    jobs := s.jobs.set i (Job.executeclone repo directory g ExecPc.returned) }
    else none
  | some (Job.executeclone repo directory g ExecPc.returned) =>
    if 0 < s.queue then
      some { s with queue := s.queue - 1,
                    jobs := s.jobs.set i (Job.executeclone repo directory g ExecPc.finished) }
    else none
  | some (Job.executeclone _ _ _ ExecPc.finished) => none
  | some (Job.gitclone cloneURL repoName w GitPc.spawned) =>
    match gitclone cfg.git cloneURL repoName with
    | Except.ok _ =>
      some { s with wg := s.wgDone w,
                    jobs := s.jobs.set i (Job.gitclone cloneURL repoName w GitPc.returned) }
    | Except.error _ =>
      some { s with wg := s.wgDone w,
                    jobs := s.jobs.set i (Job.gitclone cloneURL repoName w GitPc.failed),
                    ended := true }
  | some (Job.gitclone cloneURL repoName w GitPc.returned) =>
    if 0 < s.queue then
      some { s with queue := s.queue - 1,
                    jobs := s.jobs.set i (Job.gitclone cloneURL repoName w GitPc.finished) }
    else none
  | some (Job.gitclone _ _ _ GitPc.failed) => none
  | some (Job.gitclone _ _ _ GitPc.finished) => none

/-- One step of the system; nothing moves once the process has ended. -/
def step (cfg : RunConfig) (s : Sys) (a : Action) : Option Sys :=
  if s.ended = true then none
  else
    match a with
    | Action.main => stepMain cfg s
    | Action.job i => stepJob cfg s i

/-- Runs a schedule; a goroutine chosen while it is blocked does not move. -/
def run (cfg : RunConfig) (s : Sys) (sched : List Action) : Sys :=
  sched.foldl (fun t a => (step cfg t a).getD t) s

/-- The state in which the main goroutine starts on `prog`: an empty
`executionQueue`, every WaitGroup at zero, no job. -/
def Sys.start (prog : List Instr) : Sys :=
  { queue := 0, wg := fun _ => 0, prog := prog, added := false, jobs := [], scans := [],
    ended := false }

/-- The instructions of `cloneorgrepos` after the listing (main.go 124-136),
`orgrepowg` being the WaitGroup `main g`. -/
def cloneorgrepos (g : Nat) (orgRepos : List Repository) : List Instr :=
  (cloneorgreposCalls orgRepos).map (fun c => Instr.submit (Body.executeclone c.1 c.2) g) ++
    [Instr.wait g]

/-- The instructions of `cloneTeamRepos` (main.go 611-658): `os.Exit(2)` when
`findTeamByName` found no team (`none`), else the submissions and the wait. -/
def cloneTeamRepos (g : Nat) (teamRepos : Option (List Repository)) : List Instr :=
  match teamRepos with
  | none => [Instr.exit]
  | some repos =>
    (cloneTeamReposCalls repos).map (fun c => Instr.submit (Body.executeclone c.1 c.2) g) ++
      [Instr.wait g]

/-- The instructions of `cloneuserrepos` after the listing (main.go 171-182). -/
def cloneuserrepos (g : Nat) (user : Str) (userRepos : List Repository) : List Instr :=
  (cloneuserreposCalls user userRepos).map
      (fun c => Instr.submit (Body.executeclone c.1 c.2) g) ++
    [Instr.wait g]

/-- The instructions of `cloneusergists` after the listing (main.go 212-226). -/
def cloneusergists (g : Nat) (user : Str) (userGists : List Gist) : List Instr :=
  (cloneusergistsCalls user userGists).map (fun c => Instr.submit (Body.gitclone c.1 c.2) g) ++
    [Instr.wait g]

/-- A member of the organization with the listings of the member. -/
structure Member where
  Login : Str
  repos : List Repository
  gists : List Gist

/-- The loop of main.go 720-730 over the members from index `k` on: for each
one `cloneuserrepos` then `cloneusergists`, each with a WaitGroup of its own. -/
def cloneMembers : List Member → Nat → List Instr
  | [], _ => []
  | m :: ms, k =>
    cloneuserrepos (2 * k + 2) m.Login m.repos ++ cloneusergists (2 * k + 3) m.Login m.gists ++
      cloneMembers ms (k + 1)

/-- The organization branch of `main` (main.go 691-760) as the instructions of
the main goroutine, from the listings of the organization. -/
def mainOrg (teamName : Str) (orgOnly : Bool) (orgRepos : List Repository)
    (teamRepos : Option (List Repository)) (allUsers : List Member) : List Instr :=
  cloneorgrepos 0 orgRepos ++
  (if teamName ≠ [] then cloneTeamRepos 1 teamRepos else []) ++
  (if orgOnly = false then cloneMembers allUsers 0 else []) ++
  [Instr.scan ScanCall.scanorgrepos] ++
  (if teamName ≠ [] then [Instr.scan ScanCall.scanTeamRepos] else []) ++
  (if orgOnly = false then allUsers.map (fun m => Instr.scan (ScanCall.scanforeachuser m.Login))
   else [])

/-- A job goroutine that holds its slot and is blocked at the
`executionQueue <- true` of the inner `enqueueJob`. -/
def Job.reserving : Job → Bool
  | Job.executeclone _ _ _ (ExecPc.reserving _) => true
  | _ => false

/-- All `threads` slots are held by jobs that are each blocked waiting to
reserve a further slot. -/
def Sys.allSlotsBlocked (cfg : RunConfig) (s : Sys) : Prop :=
  s.queue = cfg.threads ∧ (s.jobs.filter Job.reserving).length = cfg.threads

/-- A retrieval job that has reached a terminal state: its clone succeeded or failed. -/
def Job.terminal : Job → Bool
  | Job.gitclone _ _ _ GitPc.spawned => false
  | Job.executeclone _ _ _ ExecPc.spawned => false
  | Job.executeclone _ _ _ (ExecPc.reserving _) => false
  | Job.executeclone _ _ _ ExecPc.waiting => false
  | _ => true

/-- Pool width 1, forks not cloned, every clone succeeding. -/
def widthOne : RunConfig :=
  { threads := 1, cloneForks := false, scanPrivateReposOnly := false, git := fun _ _ => none }

/-- An organization repository that is not a fork. -/
def repoA : Repository :=
  ⟨"a".toList, "https://github.com/o/a.git".toList, "git@github.com:o/a.git".toList, false,
    "o".toList⟩

/-! ### What the WaitGroup counters account for -/

/-- The WaitGroup on which a job calls `Done()`. -/
def Job.wgRef : Job → WgRef
  | Job.executeclone _ _ g _ => WgRef.main g
  | Job.gitclone _ _ w _ => w

/-- The number of jobs that will still call `Done()` on `w`. -/
def owing (w : WgRef) (jobs : List Job) : Nat :=
  jobs.countP (fun j => decide (j.wgRef = w) && !j.terminal)

/-- The `Add(1)` of the main goroutine on `main g` whose job is not started
yet: the main goroutine is at the `executionQueue <- true` of `enqueueJob`. -/
def pendingMain (added : Bool) (prog : List Instr) (g : Nat) : Nat :=
  if added = true then
    match prog with
    | Instr.submit _ g2 :: _ => if g2 = g then 1 else 0
    | _ => 0
  else 0

/-- The `orgclone.Add(1)` of the `executeclone` job `p` whose `gitclone` is not
started yet. -/
def pendingLocal (jobs : List Job) (p : Nat) : Nat :=
  match jobs[p]? with
  | some j => if j.reserving = true then 1 else 0
  | none => 0

/-- The reference of every job that still owes a `Done()` to an `orgclone`
points to an `executeclone` job that is at `orgclone.Wait()`. -/
def ParentWaits (jobs : List Job) : Prop :=
  ∀ (i : Nat) (c : Job) (p : Nat), jobs[i]? = some c → c.terminal = false →
    c.wgRef = WgRef.orgclone p →
    ∃ repo dir g, jobs[p]? = some (Job.executeclone repo dir g ExecPc.waiting)

/-- The WaitGroup of the next `Wait()` of the main goroutine. -/
def firstWait : List Instr → Option Nat
  | [] => none
  | Instr.wait g :: _ => some g
  | _ :: rest => firstWait rest

/-- Shape of the programs of the main goroutine: every submission on a
WaitGroup is followed by the `Wait()` on that WaitGroup before any other
`Wait()`, and no `Wait()` follows a scan call. -/
def WellFormed : List Instr → Prop
  | [] => True
  | Instr.submit _ g :: rest => firstWait rest = some g ∧ WellFormed rest
  | Instr.wait _ :: rest => WellFormed rest
  | Instr.scan _ :: rest => firstWait rest = none ∧ WellFormed rest
  | Instr.exit :: rest => WellFormed rest

/-- The invariant of the clone phase. -/
structure Inv (s : Sys) : Prop where
  countersMain : ∀ g, owing (WgRef.main g) s.jobs + pendingMain s.added s.prog g
    ≤ s.wg (WgRef.main g)
  countersLocal : ∀ p, owing (WgRef.orgclone p) s.jobs + pendingLocal s.jobs p
    ≤ s.wg (WgRef.orgclone p)
  parent : ParentWaits s.jobs
  wf : WellFormed s.prog
  added : s.added = true → ∃ b g rest, s.prog = Instr.submit b g :: rest
  current : ∀ g, 0 < s.wg (WgRef.main g) → firstWait s.prog = some g
  scanned : s.scans ≠ [] → firstWait s.prog = none

/-- Pool width 2, forks not cloned, every clone succeeding. -/
def widthTwo : RunConfig :=
  { threads := 2, cloneForks := false, scanPrivateReposOnly := false, git := fun _ _ => none }

/-- A schedule that carries the organization branch for the one repository
`repoA` (no team, `orgOnly`) through its clone and on to `scanorgrepos`. -/
def cloneThenScan : List Action :=
  [Action.main, Action.main, Action.job 0, Action.job 0, Action.job 1, Action.job 0,
   Action.job 1, Action.job 0, Action.main, Action.main]

/-- The schedule that lets the main goroutine submit `n` jobs, each of which
is run up to its inner `enqueueJob` right after its submission; `k` is the
number of the first of these jobs. -/
def fillSchedule : Nat → Nat → List Action
  | 0, _ => []
  | n + 1, k => [Action.main, Action.main, Action.job k] ++ fillSchedule n (k + 1)

/-- The main goroutine is inside `cloneorgrepos` with the calls `cs` still to
submit, and each of the `k` jobs submitted so far holds a slot and is at its
inner `enqueueJob`. -/
def Filling (s : Sys) (k : Nat) (cs : List (Repository × Str)) : Prop :=
  s.queue = k ∧ s.jobs.length = k ∧ (s.jobs.filter Job.reserving).length = k ∧
    s.added = false ∧ s.ended = false ∧
    s.prog = cs.map (fun c => Instr.submit (Body.executeclone c.1 c.2) 0) ++ [Instr.wait 0]

/-- A scan environment in which every command succeeds. -/
def scansSucceed : ScanEnv where
  uuid := fun _ => "6ba7b810-9dad-11d1-80b4-00c04fd430c8".toList
  openFile := fun _ => none
  run := fun _ => none

/-! ### The single-URL branch of `main` (main.go 781-840) -/

/-- What the single-URL branch derives from the URL before it clones and scans:
`gitclone(url, fpath, wgo)` and then
`runGitTools(*toolName, fpath+"/", wgs, rn, orgoruserName)`. -/
structure SingleTarget where
  url : Str
  orgoruserName : Str
  rn : Str
  fpath : Str
deriving DecidableEq, Repr

/-- The derivation of main.go 783-814.  `none` is the index-out-of-range panic
of `splitArray[3]` or `tempstr2[1]`. -/
def mainSingleURL (repoURL gistURL : Str) (scanPrivateReposOnly : Bool) : Option SingleTarget :=
  let bpath := "/tmp/repos/".toList
  let url := if repoURL ≠ [] then repoURL else gistURL
  let splitArray := Split url '/'
  let lastString := splitArray.getLastD []
  let owner :=
    if scanPrivateReposOnly = false then splitArray[3]?
    else (Split (splitArray.headD []) ':')[1]?
  match owner with
  | none => none
  | some orgoruserName =>
    if repoURL ≠ [] then
      let rn := (Split lastString '.').headD []
      some { url := url, orgoruserName := orgoruserName, rn := rn,
             fpath := bpath ++ "singlerepo/".toList ++ rn }
    else
      some { url := url, orgoruserName := orgoruserName, rn := lastString,
             fpath := bpath ++ "singlegist/".toList ++ lastString }

/-- Scan environments of two invocations with distinct UUIDs. -/
def firstInvocation : ScanEnv where
  uuid := fun _ => "6ba7b810-9dad-11d1-80b4-00c04fd430c8".toList
  openFile := fun _ => none
  run := fun _ => none

/-- The second invocation: the same commands, another UUID. -/
def secondInvocation : ScanEnv where
  uuid := fun _ => "6ba7b811-9dad-11d1-80b4-00c04fd430c8".toList
  openFile := fun _ => none
  run := fun _ => none

/-! ### The listing loops (main.go 114-122, 161-169, 202-210, 238-246, 624-632) -/

/-- The field of `github.User` that the source dereferences. -/
structure User where
  Login : Str
deriving DecidableEq, Repr

/-- A paginated listing call of the API client for a fixed scope, as a function
of `opt.Page`: the items of the page and `resp.NextPage`, or `none` when the
call returns an error. -/
abbrev ListingSource (α : Type) := Nat → Option (List α × Nat)

/-- How a listing loop ends. -/
inductive Listed (α : Type)
  /-- the loop left through `break`: the pages requested, in order, and the
  accumulated items -/
  | done (requested : List Nat) (items : List α)
  /-- `check(err)` panicked after the requests made so far -/
  | panicked (requested : List Nat)
  /-- the loop is still running after the given number of iterations -/
  | running
deriving DecidableEq, Repr

/-- The loop `for { items, resp, err := List(ctx, scope, opt); check(err);
all = append(all, items...); if resp.NextPage == 0 { break }; opt.Page = resp.NextPage }`
run for at most `fuel` iterations from `opt.Page = page`, with the requests made
and the items accumulated so far. -/
def listPages {α : Type} (fetch : ListingSource α) :
    Nat → Nat → List Nat → List α → Listed α
  | 0, _, _, _ => Listed.running
  | fuel + 1, page, requested, acc =>
    match fetch page with
    | none => Listed.panicked (requested ++ [page])
    | some (items, next) =>
      if next = 0 then Listed.done (requested ++ [page]) (acc ++ items)
      else listPages fetch fuel next (requested ++ [page]) (acc ++ items)

/-- `listallusers`: the loop from `opt2.Page = 0` (the zero value of the field)
and the empty `allUsers`. -/
def listallusers (fetch : ListingSource User) (fuel : Nat) : Listed User :=
  listPages fetch fuel 0 [] []

/-- A step of a coordinator on the main goroutine: a listing request, or an
instruction of its submission phase. -/
inductive CoordinatorStep
  | request (page : Nat)
  | instr (i : Instr)
deriving DecidableEq, Repr

/-- The steps of a coordinator whose listing loop is followed by the
instructions built from the accumulated listing; `none` when the loop does not
end through `break`. -/
def coordinatorSteps {α : Type} (fetch : ListingSource α) (fuel : Nat)
    (instrs : List α → List Instr) : Option (List CoordinatorStep) :=
  match listPages fetch fuel 0 [] [] with
  | Listed.done requested items =>
    some (requested.map CoordinatorStep.request ++ (instrs items).map CoordinatorStep.instr)
  | _ => none

/-- `cloneorgrepos` with its listing loop (main.go 106-139). -/
def cloneorgreposSteps (fetch : ListingSource Repository) (fuel g : Nat) :
    Option (List CoordinatorStep) :=
  coordinatorSteps fetch fuel (cloneorgrepos g)

/-- `cloneuserrepos` with its listing loop (main.go 141-185). -/
def cloneuserreposSteps (fetch : ListingSource Repository) (fuel g : Nat) (user : Str) :
    Option (List CoordinatorStep) :=
  coordinatorSteps fetch fuel (cloneuserrepos g user)

/-- `cloneusergists` with its listing loop (main.go 187-229). -/
def cloneusergistsSteps (fetch : ListingSource Gist) (fuel g : Nat) (user : Str) :
    Option (List CoordinatorStep) :=
  coordinatorSteps fetch fuel (cloneusergists g user)

/-- `cloneTeamRepos` for a team that `findTeamByName` found, with the listing
loop of the team repositories (main.go 616-647). -/
def cloneTeamReposSteps (fetch : ListingSource Repository) (fuel g : Nat) :
    Option (List CoordinatorStep) :=
  coordinatorSteps fetch fuel (fun teamRepos => cloneTeamRepos g (some teamRepos))

/-- The source serves, from `opt.Page = page` on, the finite chain `chain` of
pages (page number and items): each page but the last names the next one as
its non-zero `NextPage`, the last one reports `NextPage` 0, and no call fails. -/
def ServesChain {α : Type} (fetch : ListingSource α) : Nat → List (Nat × List α) → Prop
  | _, [] => False
  | page, [x] => x.1 = page ∧ fetch page = some (x.2, 0)
  | page, x :: y :: rest =>
    x.1 = page ∧ y.1 ≠ 0 ∧ fetch page = some (x.2, y.1) ∧ ServesChain fetch y.1 (y :: rest)

/-- The pages of a chain, in order. -/
def chainPages {α : Type} (chain : List (Nat × List α)) : List Nat :=
  chain.map (fun x => x.1)

/-- The items of the pages of a chain, concatenated in page order. -/
def chainItems {α : Type} (chain : List (Nat × List α)) : List α :=
  (chain.map (fun x => x.2)).flatten

/-- A listing of members in three pages: page 0 names page 2, page 2 names
page 3, page 3 is the last. -/
def threePages : ListingSource User := fun page =>
  if page = 0 then some ([⟨"ann".toList⟩, ⟨"bob".toList⟩], 2)
  else if page = 2 then some ([⟨"cyd".toList⟩], 3)
  else if page = 3 then some ([⟨"dan".toList⟩, ⟨"eve".toList⟩], 0)
  else none

/-- The chain that `threePages` serves. -/
def threePagesChain : List (Nat × List User) :=
  [(0, [⟨"ann".toList⟩, ⟨"bob".toList⟩]), (2, [⟨"cyd".toList⟩]),
   (3, [⟨"dan".toList⟩, ⟨"eve".toList⟩])]

/-! ### The user branch of `main` and a failing clone (main.go 762-779, 844-847) -/

/-- The user branch of `main` as the instructions of the main goroutine:
`cloneuserrepos`, `cloneusergists`, then the submission of the job that calls
`scanforeachuser`.  As in the organization branch the bodies of the scan
functions are outside the step model. -/
def mainUser (user : Str) (userRepos : List Repository) (userGists : List Gist) : List Instr :=
  cloneuserrepos 0 user userRepos ++ cloneusergists 1 user userGists ++
    [Instr.scan (ScanCall.scanforeachuser user)]

/-- The main goroutine has left its branch and the process has not ended: the
point at which `main` calls `combineOutput` (main.go 844-847). -/
def Sys.atCombineOutput (s : Sys) : Prop :=
  s.prog = [] ∧ s.ended = false

/-- A retrieval job whose `git clone` returned an error. -/
def Job.failed : Job → Bool
  | Job.gitclone _ _ _ GitPc.failed => true
  | _ => false

/-- Three gists of a user. -/
def threeGists : List Gist :=
  [⟨"g1".toList, "https://gist.github.com/g1.git".toList⟩,
   ⟨"g2".toList, "https://gist.github.com/g2.git".toList⟩,
   ⟨"g3".toList, "https://gist.github.com/g3.git".toList⟩]

/-- Pool width 10 (the default of `-threads`); cloning the gist `g2` fails,
every other clone succeeds. -/
def secondGistFails : RunConfig :=
  { threads := 10, cloneForks := false, scanPrivateReposOnly := false,
    git := fun url _ =>
      if url = "https://gist.github.com/g2.git".toList then some "exit status 128".toList
      else none }

/-- A schedule of the user branch for `threeGists`: the main goroutine passes
the wait of `cloneuserrepos` (no repository) and submits the three `gitclone`
jobs; the job of `g3` runs, then the job of `g2`; after that the scheduler
still picks the main goroutine and the jobs of `g1` and `g3`. -/
def g3ThenG2 : List Action :=
  [Action.main, Action.main, Action.main, Action.main, Action.main, Action.main, Action.main,
   Action.job 2, Action.job 1, Action.main, Action.job 0, Action.job 2, Action.main]

/-! ## Part II: theorems -/

/-! ### C1: the pool width bounds the running jobs -/

theorem Pool.balanced_init (N : Nat) : Pool.Balanced N Pool.init := by
  simp [Pool.Balanced, Pool.init]

theorem Pool.balanced_step (N : Nat) (p q : Pool) (e : PoolEvent)
    (hp : Pool.Balanced N p) (hs : Pool.step N p e = some q) : Pool.Balanced N q := by
  obtain ⟨h1, h2⟩ := hp
  cases e <;> simp only [Pool.step] at hs <;> split at hs <;>
    first
      | (injection hs with hs
         subst hs
         simp only [Pool.Balanced]
         omega)
      | (injection hs)

theorem Pool.balanced_exec (N : Nat) (evs : List PoolEvent) (p : Pool)
    (hp : Pool.Balanced N p) : Pool.Balanced N (Pool.exec N p evs) := by
  induction evs generalizing p with
  | nil => simpa [Pool.exec] using hp
  | cons e es ih =>
    have hstep : Pool.Balanced N ((Pool.step N p e).getD p) := by
      cases hq : Pool.step N p e with
      | none => simpa using hp
      | some q => simpa using Pool.balanced_step N p q e hp hq
    simpa [Pool.exec] using ih _ hstep

/-- The bound is attained: `N` submissions followed by `N` starts leave `N`
job bodies running on `N` reserved slots. -/
theorem Pool.exec_fill (N : Nat) :
    Pool.exec N Pool.init (List.replicate N PoolEvent.submit ++ List.replicate N PoolEvent.start)
      = { queue := N, spawned := 0, running := N, returned := 0 } := by
  have h1 : ∀ k q s r t, q + k ≤ N →
      Pool.exec N { queue := q, spawned := s, running := r, returned := t }
        (List.replicate k PoolEvent.submit)
        = { queue := q + k, spawned := s + k, running := r, returned := t } := by
    intro k
    induction k with
    | zero => intro q s r t _; simp [Pool.exec]
    | succ k ih =>
      intro q s r t h
      have hq : q < N := by omega
      have := ih (q + 1) (s + 1) r t (by omega)
      simp only [Pool.exec, List.replicate_succ, List.foldl_cons, Pool.step, hq, if_true,
        Option.getD_some] at this ⊢
      rw [this]
      congr 1 <;> omega
  have h2 : ∀ k q s r t,
      Pool.exec N { queue := q, spawned := s + k, running := r, returned := t }
        (List.replicate k PoolEvent.start)
        = { queue := q, spawned := s, running := r + k, returned := t } := by
    intro k
    induction k with
    | zero => intro q s r t; simp [Pool.exec]
    | succ k ih =>
      intro q s r t
      have hs : 0 < s + (k + 1) := by omega
      have := ih q s (r + 1) t
      simp only [Pool.exec, List.replicate_succ, List.foldl_cons, Pool.step, hs, if_true,
        Option.getD_some] at this ⊢
      have e1 : s + (k + 1) - 1 = s + k := by omega
      rw [e1, this]
      congr 1; omega
  have h3 := h1 N 0 0 0 0 (by omega)
  have h4 := h2 N N 0 0 0
  simp only [Nat.zero_add] at h3 h4
  rw [Pool.exec, List.foldl_append]
  change Pool.exec N (Pool.exec N Pool.init (List.replicate N PoolEvent.submit)) _ = _
  rw [Pool.init, h3, h4]

/-- C1: for every pool width `N >= 1` and every sequence of submissions, starts,
completions and releases of `enqueueJob`, the number of job bodies running is
at most the number of reserved slots (`len(executionQueue)`), which is at most `N`. -/
theorem C1_running_le_reserved_le_width (N : Nat) (hN : 1 ≤ N) (evs : List PoolEvent) :
    (Pool.exec N Pool.init evs).running ≤ (Pool.exec N Pool.init evs).queue ∧
      (Pool.exec N Pool.init evs).queue ≤ N := by
  have _ := hN
  obtain ⟨h1, h2⟩ := Pool.balanced_exec N evs Pool.init (Pool.balanced_init N)
  exact ⟨by omega, h2⟩

theorem C1_running_le_reserved_le_width_witness :
    1 ≤ 2 ∧ (Pool.exec 2 Pool.init [.submit, .submit, .submit, .start, .start]).running = 2 ∧
      ((Pool.exec 2 Pool.init [.submit, .submit, .submit, .start, .start]).running ≤
          (Pool.exec 2 Pool.init [.submit, .submit, .submit, .start, .start]).queue ∧
        (Pool.exec 2 Pool.init [.submit, .submit, .submit, .start, .start]).queue ≤ 2) :=
  ⟨by decide, by decide,
    C1_running_le_reserved_le_width 2 (by decide) [.submit, .submit, .submit, .start, .start]⟩

/-! ### C6: forks are skipped unless `cloneForks` -/

theorem executeclone_isSome (cf sp : Bool) (repo : Repository) (dir : Str) :
    (executeclone cf sp repo dir).isSome = (cf || !repo.Fork) := by
  cases cf <;> cases h : repo.Fork <;> simp [executeclone, h]

theorem submittedRetrievals_length (cf sp : Bool) (calls : List (Repository × Str)) :
    (submittedRetrievals cf sp calls).length
      = (calls.filter (fun c => cf || !c.1.Fork)).length := by
  induction calls with
  | nil => rfl
  | cons c cs ih =>
    have h := executeclone_isSome cf sp c.1 c.2
    cases hc : executeclone cf sp c.1 c.2 with
    | none =>
      rw [hc] at h
      have h2 : (cf || !c.1.Fork) = false := by simpa using h.symm
      simp only [submittedRetrievals, List.filterMap_cons, hc, List.filter_cons, h2] at ih ⊢
      simpa using ih
    | some a =>
      rw [hc] at h
      have h2 : (cf || !c.1.Fork) = true := by simpa using h.symm
      simp only [submittedRetrievals, List.filterMap_cons, hc, List.filter_cons, h2,
        List.length_cons] at ih ⊢
      simpa using ih

/-- C6: `executeclone` submits a retrieval for a repository iff `cloneForks` is
enabled or the repository is not a fork (a fork with `cloneForks` disabled is
never submitted); hence with `cloneForks` disabled the retrievals submitted for
the listed repositories of `cloneorgrepos` are as many as the non-fork
repositories, and 3 repositories with 1 fork give 2 retrievals. -/
theorem C6_fork_skipped_unless_cloneForks :
    (∀ (cf sp : Bool) (repo : Repository) (dir : Str),
      ((executeclone cf sp repo dir).isSome = true ↔ (cf = true ∨ repo.Fork = false)) ∧
      (cf = false → repo.Fork = true → executeclone cf sp repo dir = none)) ∧
    (∀ (sp : Bool) (orgRepos : List Repository),
      (submittedRetrievals false sp (cloneorgreposCalls orgRepos)).length
        = (orgRepos.filter (fun r => !r.Fork)).length) ∧
    (∀ (sp : Bool) (orgRepos : List Repository), orgRepos.length = 3 →
      (orgRepos.filter (fun r => r.Fork)).length = 1 →
      (submittedRetrievals false sp (cloneorgreposCalls orgRepos)).length = 2) := by
  have hcount : ∀ (sp : Bool) (orgRepos : List Repository),
      (submittedRetrievals false sp (cloneorgreposCalls orgRepos)).length
        = (orgRepos.filter (fun r => !r.Fork)).length := by
    intro sp orgRepos
    rw [submittedRetrievals_length, cloneorgreposCalls, List.filter_map, List.length_map]
    congr 1
  refine ⟨?_, hcount, ?_⟩
  · intro cf sp repo dir
    constructor
    · rw [executeclone_isSome]
      cases cf <;> cases repo.Fork <;> simp
    · intro h1 h2
      subst h1
      have := executeclone_isSome false sp repo dir
      rw [h2] at this
      simpa using this
  · intro sp orgRepos hlen hfork
    rw [hcount]
    have hsplit : ∀ l : List Repository,
        (l.filter (fun r => r.Fork)).length + (l.filter (fun r => !r.Fork)).length
          = l.length := by
      intro l
      induction l with
      | nil => rfl
      | cons a as ih =>
        cases ha : a.Fork <;> simp [List.filter_cons, ha] <;> omega
    have := hsplit orgRepos
    omega

theorem C6_fork_skipped_unless_cloneForks_witness :
    (submittedRetrievals false false (cloneorgreposCalls
        [⟨"a".toList, "https://h/o/a.git".toList, "git@h:o/a.git".toList, false, "o".toList⟩,
         ⟨"b".toList, "https://h/o/b.git".toList, "git@h:o/b.git".toList, true, "o".toList⟩,
         ⟨"c".toList, "https://h/o/c.git".toList, "git@h:o/c.git".toList, false, "o".toList⟩])).length
      = 2 :=
  C6_fork_skipped_unless_cloneForks.2.2 false _ (by decide) (by decide)

/-! ### C9, C10: `checkflags` -/

/-- C9: with a non-empty token, `checkflags` ends the run with exit status 2
whenever the number of non-empty options among `org`, `user`, `repoURL` and
`gistURL` is not exactly one; so `checkflags` returns only for configurations
that name exactly one scope. -/
theorem C9_scope_options_mutually_exclusive (env : FlagEnv)
    (token org user repoURL gistURL teamName : Str) (sp orgOnly : Bool) (toolName : Str) :
    (token ≠ [] → scopeCount org user repoURL gistURL ≠ 1 →
      checkflags env token org user repoURL gistURL teamName sp orgOnly toolName
        = Outcome.exit 2) ∧
    (checkflags env token org user repoURL gistURL teamName sp orgOnly toolName
        = Outcome.returned → scopeCount org user repoURL gistURL = 1) := by
  have key : scopeCount org user repoURL gistURL ≠ 1 →
      checkflags env token org user repoURL gistURL teamName sp orgOnly toolName
        ≠ Outcome.returned := by
    intro hc
    unfold checkflags
    by_cases ht : token = []
    · simp [ht]
    · by_cases h1 : org = [] <;> by_cases h2 : user = [] <;> by_cases h3 : repoURL = [] <;>
        by_cases h4 : gistURL = [] <;>
        simp [scopeCount, List.filter_cons, h1, h2, h3, h4] at hc <;>
        simp [ht, h1, h2, h3, h4]
  constructor
  · intro ht hc
    unfold checkflags
    by_cases h1 : org = [] <;> by_cases h2 : user = [] <;> by_cases h3 : repoURL = [] <;>
      by_cases h4 : gistURL = [] <;>
      simp [scopeCount, List.filter_cons, h1, h2, h3, h4] at hc <;>
      simp [ht, h1, h2, h3, h4]
  · intro hr
    by_contra hc
    exact key hc hr

theorem C9_scope_options_mutually_exclusive_witness :
    checkflags ⟨true, none⟩ "t".toList "o".toList "u".toList [] [] [] false false "all".toList
      = Outcome.exit 2 ∧
    scopeCount "o".toList [] [] [] = 1 :=
  ⟨(C9_scope_options_mutually_exclusive ⟨true, none⟩ "t".toList "o".toList "u".toList [] [] []
      false false "all".toList).1 (by decide) (by decide),
   (C9_scope_options_mutually_exclusive ⟨true, none⟩ "t".toList "o".toList [] [] [] []
      false false "all".toList).2 (by decide)⟩

/-- C10 (the code at the failing input): with `scanPrivateReposOnly`, a user
who owns the token and an SSH key in place, `checkflags` returns although
`toolName` is `"foo"`: the `else if` chain takes the `scanPrivateReposOnly`
branch and never reaches the tool-selector test. -/
theorem C10_checkflags_returns_on_unknown_tool :
    checkflags ⟨true, some [⟨"r".toList, "https://github.com/u/r.git".toList,
        "git@github.com:u/r.git".toList, false, "u".toList⟩]⟩
      "t".toList [] "u".toList [] [] [] true false "foo".toList = Outcome.returned := by
  decide

/-! ### C5: `runGitTools` under selector "all" -/

/-- C5 (counterexample): when `./rungitsecrets.sh` fails, `runGitTools` with
selector "all" invokes gitsecrets only and panics; thog and repo-supervisor
are not invoked. -/
theorem C5_counterexample_gitsecrets_failure_stops_all :
    ((runGitTools gitsecretsFails "all".toList "/tmp/repos/org/r/".toList "r".toList
        "o".toList).invoked.map ScanCmd.tool = [Scanner.gitsecrets]) ∧
    (runGitTools gitsecretsFails "all".toList "/tmp/repos/org/r/".toList "r".toList
        "o".toList).panic = some "exit status 1".toList ∧
    ¬ (∀ t : Scanner, t ∈ (runGitTools gitsecretsFails "all".toList "/tmp/repos/org/r/".toList
        "r".toList "o".toList).invoked.map ScanCmd.tool) := by
  refine ⟨by decide, by decide, ?_⟩
  intro h
  exact absurd (h Scanner.thog) (by decide)

/-- C5 (amended): under selector "all" `runGitTools` invokes gitsecrets, thog and
repo-supervisor on the directory, in this order, each one only when every
command before it (and the opening of the thog output file) succeeded; the
first failure panics and the scanners after it are not invoked.  When nothing
fails all three are invoked and `runGitTools` returns. -/
theorem C5_all_runs_tools_until_first_failure (env : ScanEnv)
    (filepath reponame orgoruser : Str) :
    (∀ e, env.run (cmd2 env filepath reponame orgoruser) = some e →
      runGitTools env "all".toList filepath reponame orgoruser
        = ⟨[cmd2 env filepath reponame orgoruser], some e⟩) ∧
    (∀ e, env.run (cmd2 env filepath reponame orgoruser) = none →
      env.openFile (cmd1 env filepath reponame orgoruser).outputFile = some e →
      runGitTools env "all".toList filepath reponame orgoruser
        = ⟨[cmd2 env filepath reponame orgoruser], some e⟩) ∧
    (∀ e, env.run (cmd2 env filepath reponame orgoruser) = none →
      env.openFile (cmd1 env filepath reponame orgoruser).outputFile = none →
      env.run (cmd1 env filepath reponame orgoruser) = some e →
      runGitTools env "all".toList filepath reponame orgoruser
        = ⟨[cmd2 env filepath reponame orgoruser, cmd1 env filepath reponame orgoruser],
            some e⟩) ∧
    (env.run (cmd2 env filepath reponame orgoruser) = none →
      env.openFile (cmd1 env filepath reponame orgoruser).outputFile = none →
      env.run (cmd1 env filepath reponame orgoruser) = none →
      runGitTools env "all".toList filepath reponame orgoruser
        = ⟨[cmd2 env filepath reponame orgoruser, cmd1 env filepath reponame orgoruser,
            cmd3 env filepath reponame orgoruser],
            env.run (cmd3 env filepath reponame orgoruser)⟩ ∧
      (cmd2 env filepath reponame orgoruser).filepath = filepath ∧
      (cmd1 env filepath reponame orgoruser).filepath = filepath ∧
      (cmd3 env filepath reponame orgoruser).filepath = filepath) := by
  refine ⟨?_, ?_, ?_, ?_⟩
  · intro e h2
    simp [runGitTools, runGitsecrets, Ran.andThen, h2]
  · intro e h2 ho
    simp [runGitTools, runGitsecrets, runTrufflehog, Ran.andThen, h2, ho]
  · intro e h2 ho h1
    simp [runGitTools, runGitsecrets, runTrufflehog, Ran.andThen, h2, ho, h1]
  · intro h2 ho h1
    refine ⟨?_, rfl, rfl, rfl⟩
    simp [runGitTools, runGitsecrets, runTrufflehog, runReposupervisor, Ran.andThen, h2, ho, h1]

theorem C5_all_runs_tools_until_first_failure_witness :
    runGitTools gitsecretsFails "all".toList "/tmp/repos/org/r/".toList "r".toList "o".toList
      = ⟨[cmd2 gitsecretsFails "/tmp/repos/org/r/".toList "r".toList "o".toList],
          some "exit status 1".toList⟩ ∧
    (runGitTools scansSucceed "all".toList "/tmp/repos/org/r/".toList "r".toList
        "o".toList).invoked.map ScanCmd.tool
      = [Scanner.gitsecrets, Scanner.thog, Scanner.reposupervisor] :=
  ⟨(C5_all_runs_tools_until_first_failure gitsecretsFails "/tmp/repos/org/r/".toList "r".toList
      "o".toList).1 "exit status 1".toList (by decide),
   by
    rw [((C5_all_runs_tools_until_first_failure scansSucceed "/tmp/repos/org/r/".toList
      "r".toList "o".toList).2.2.2 (by decide) (by decide) (by decide)).1]
    rfl⟩

/-! ### `strings.Split` and the report header -/

theorem Split_ne_nil (s : Str) (sep : Char) : Split s sep ≠ [] := by
  cases s with
  | nil => simp [Split]
  | cons c cs =>
    simp only [Split]
    split
    · simp
    · split <;> simp

theorem Split_append_sep (a rest : Str) (sep : Char) (h : sep ∉ a) :
    Split (a ++ sep :: rest) sep = a :: Split rest sep := by
  induction a with
  | nil => simp [Split]
  | cons c cs ih =>
    have hc : c ≠ sep := fun e => h (by simp [e])
    have hcs : sep ∉ cs := fun e => h (by simp [e])
    have ih2 := ih hcs
    show Split (c :: (cs ++ sep :: rest)) sep = _
    simp only [Split, hc, if_false, ih2]

/-- For labels without `_` the header read back from the artifact file name
carries the owner and the name the runner was given. -/
theorem headerLine_artifactFile (o r u : Str) (ho : '_' ∉ o) (hr : '_' ∉ r) :
    headerLine (artifactFile o r u)
      = some ("OrgorUser: ".toList ++ o ++ " RepoName: ".toList ++ r ++ "\n".toList) := by
  have e : artifactFile o r u = o ++ '_' :: (r ++ '_' :: (u ++ ".txt".toList)) := by
    simp [artifactFile]
  rw [headerLine, e, Split_append_sep _ _ _ ho, Split_append_sep _ _ _ hr]

/-- C8 (the code at the failing input): for owner `acme`, repository
`my_repo` and any suffix, here a UUID string, the header that `toolsOutput`
derives from the artifact file name reads `RepoName: my`, not `my_repo`. -/
theorem C8_header_truncates_name_with_underscore :
    headerLine (artifactFile "acme".toList "my_repo".toList
        "6ba7b810-9dad-11d1-80b4-00c04fd430c8".toList)
      = some "OrgorUser: acme RepoName: my\n".toList ∧
    headerLine (artifactFile "acme".toList "my_repo".toList
        "6ba7b810-9dad-11d1-80b4-00c04fd430c8".toList)
      ≠ some ("OrgorUser: ".toList ++ "acme".toList ++ " RepoName: ".toList ++
          "my_repo".toList ++ "\n".toList) := by
  constructor <;> decide

/-! ### C7: the report written by `combineOutput` -/

set_option maxRecDepth 100000 in
theorem linedelimiter_eq : linedelimiter = List.replicate 304 '-' := by
  decide

theorem headerLine_of_two_fields (name : Str) (h : 2 ≤ (Split name '_').length) :
    headerLine name = some ("OrgorUser: ".toList ++ (Split name '_').getD 0 [] ++
      " RepoName: ".toList ++ (Split name '_').getD 1 [] ++ "\n".toList) := by
  unfold headerLine
  cases hs : Split name '_' with
  | nil => rw [hs] at h; simp at h
  | cons a t =>
    cases t with
    | nil => rw [hs] at h; simp at h
    | cons b t2 => simp

/-- Every file name built by a scan runner has at least two `_`-separated fields. -/
theorem artifactFile_two_fields (o r u : Str) :
    2 ≤ (Split (artifactFile o r u) '_').length := by
  have key : ∀ (a rest : Str), 2 ≤ (Split (a ++ '_' :: rest) '_').length := by
    intro a rest
    induction a with
    | nil =>
      have := Split_ne_nil rest '_'
      cases h : Split rest '_' with
      | nil => exact absurd h this
      | cons x xs => simp [Split, h]
    | cons c cs ih =>
      show 2 ≤ (Split (c :: (cs ++ '_' :: rest)) '_').length
      simp only [Split]
      split
      · have := Split_ne_nil (cs ++ '_' :: rest) '_'
        cases h : Split (cs ++ '_' :: rest) '_' with
        | nil => exact absurd h this
        | cons x xs => simp
      · split
        · rename_i h; rw [h] at ih; simp at ih
        · rename_i f fs h; rw [h] at ih; simpa using ih
  have e : artifactFile o r u = o ++ '_' :: (r ++ '_' :: (u ++ ".txt".toList)) := by
    simp [artifactFile]
  rw [e]
  exact key _ _

theorem toolsOutputLoop_eq (results : List ResultFile) (out : Str)
    (h : ∀ f ∈ results, f.content ≠ [] → 2 ≤ (Split f.Name '_').length) :
    toolsOutputLoop results out
      = some (out ++
          ((results.filter (fun f => decide (f.content ≠ []))).map reportEntry).flatten) := by
  induction results generalizing out with
  | nil => simp [toolsOutputLoop]
  | cons f fs ih =>
    have hfs : ∀ g ∈ fs, g.content ≠ [] → 2 ≤ (Split g.Name '_').length :=
      fun g hg => h g (List.mem_cons_of_mem _ hg)
    by_cases hc : f.content = []
    · simp [toolsOutputLoop, hc, ih _ hfs]
    · have hlen : f.content.length ≠ 0 := by
        intro h0
        exact hc (List.length_eq_zero.mp h0)
      have hh := headerLine_of_two_fields f.Name (h f (List.mem_cons_self _ _) hc)
      simp only [toolsOutputLoop, hlen, if_false, hh, ih _ hfs]
      have he : reportEntry f = "OrgorUser: ".toList ++ (Split f.Name '_').getD 0 [] ++
          " RepoName: ".toList ++ (Split f.Name '_').getD 1 [] ++ "\n".toList ++ f.content ++
          (linedelimiter ++ "\n".toList) := by
        rw [reportEntry, linedelimiter_eq]
      have hf : (f :: fs).filter (fun f => decide (f.content ≠ []))
          = f :: fs.filter (fun f => decide (f.content ≠ [])) := by
        simp [List.filter_cons, hc]
      rw [hf, List.map_cons, List.flatten_cons, he]
      generalize linedelimiter = d
      simp only [List.append_assoc]

theorem singletoolOutput_eq (results : List ResultFile) (out : Str) :
    singletoolOutput results out = some (out ++ reportSingle results) := by
  induction results generalizing out with
  | nil => simp [singletoolOutput, reportSingle]
  | cons f fs ih =>
    by_cases hc : f.content = []
    · simp [singletoolOutput, hc, ih, reportSingle]
    · have hlen : f.content.length ≠ 0 := by
        intro h0
        exact hc (List.length_eq_zero.mp h0)
      simp only [singletoolOutput, hlen, if_false, ih]
      simp [reportSingle, List.filter_cons, hc, List.append_assoc]

/-- C7: the report written by `combineOutput`.  With selector "all" it is, for
each tool in the order thog, gitsecrets, repo-supervisor, the line `Tool: <tool>`
followed by one entry per non-empty artifact of that tool in listing order
(header line `OrgorUser: <o> RepoName: <r>` with the first two `_`-separated
fields of the file name, the artifact bytes verbatim, the delimiter line of 304
dashes) and nothing for a zero-length artifact; with a single-tool selector it
is the concatenation of the bytes of the non-empty artifacts in listing order.
Artifact file names carry at least two `_`-separated fields, as every name
built by the scan runners does. -/
theorem C7_report_has_one_entry_per_nonempty_artifact (readDir : Str → List ResultFile)
    (hnames : ∀ tool ∈ ["thog".toList, "gitsecrets".toList, "repo-supervisor".toList],
      ∀ f ∈ readDir ("/tmp/results/".toList ++ tool ++ "/".toList),
        f.content ≠ [] → 2 ≤ (Split f.Name '_').length) :
    combineOutput readDir "all".toList = some (reportAll readDir) ∧
    (∀ tool ∈ ["thog".toList, "gitsecrets".toList, "repo-supervisor".toList],
      combineOutput readDir tool
        = some (reportSingle (readDir ("/tmp/results/".toList ++ tool ++ "/".toList)))) := by
  constructor
  · have h1 := hnames "thog".toList (by simp)
    have h2 := hnames "gitsecrets".toList (by simp)
    have h3 := hnames "repo-supervisor".toList (by simp)
    simp only [combineOutput, if_true, List.foldlM, toolsOutput, bind, Option.bind, pure]
    rw [toolsOutputLoop_eq _ _ h1]
    simp only []
    rw [toolsOutputLoop_eq _ _ h2]
    simp only []
    rw [toolsOutputLoop_eq _ _ h3]
    simp [reportAll, reportSection, List.append_assoc]
  · intro tool ht
    simp only [List.mem_cons, List.mem_singleton, List.not_mem_nil, or_false] at ht
    rcases ht with rfl | rfl | rfl
    · have : ("thog".toList : Str) ≠ "all".toList := by decide
      have h2 : ("thog".toList : Str) ≠ "gitsecrets".toList := by decide
      simp only [combineOutput, this, h2, if_false, if_true, singletoolOutput_eq]
      simp
    · have : ("gitsecrets".toList : Str) ≠ "all".toList := by decide
      simp only [combineOutput, this, if_false, if_true, singletoolOutput_eq]
      simp
    · have : ("repo-supervisor".toList : Str) ≠ "all".toList := by decide
      have h2 : ("repo-supervisor".toList : Str) ≠ "gitsecrets".toList := by decide
      have h3 : ("repo-supervisor".toList : Str) ≠ "thog".toList := by decide
      simp only [combineOutput, this, h2, h3, if_false, if_true, singletoolOutput_eq]
      simp

theorem C7_report_has_one_entry_per_nonempty_artifact_witness :
    combineOutput sampleResults "all".toList = some (reportAll sampleResults) ∧
    (∀ tool ∈ ["thog".toList, "gitsecrets".toList, "repo-supervisor".toList],
      combineOutput sampleResults tool
        = some (reportSingle (sampleResults ("/tmp/results/".toList ++ tool ++ "/".toList)))) :=
  C7_report_has_one_entry_per_nonempty_artifact sampleResults (by decide)

/-! ### C2: a job that holds its slot while it reserves another one -/

/-- C2 (the code at the failing input): pool width 1 and one organization
repository that is not a fork.  After the main goroutine has submitted
`executeclone` and that job has reached its inner `enqueueJob`, the only slot is
held by the job, which is blocked waiting to reserve a further slot, the main
goroutine is blocked in `orgrepowg.Wait()`, and no goroutine can take a step. -/
theorem C2_cloneorgrepos_deadlocks_at_width_one :
    (run widthOne (Sys.start (cloneorgrepos 0 [repoA]))
        [Action.main, Action.main, Action.job 0]).allSlotsBlocked widthOne ∧
    (run widthOne (Sys.start (cloneorgrepos 0 [repoA]))
        [Action.main, Action.main, Action.job 0]).jobs
      = [Job.executeclone repoA "/tmp/repos/org/a".toList 0
          (ExecPc.reserving "https://github.com/o/a.git".toList)] ∧
    (run widthOne (Sys.start (cloneorgrepos 0 [repoA]))
        [Action.main, Action.main, Action.job 0]).prog = [Instr.wait 0] ∧
    (run widthOne (Sys.start (cloneorgrepos 0 [repoA]))
        [Action.main, Action.main, Action.job 0]).ended = false ∧
    (∀ a : Action, step widthOne (run widthOne (Sys.start (cloneorgrepos 0 [repoA]))
        [Action.main, Action.main, Action.job 0]) a = none) := by
  refine ⟨⟨by decide, by decide⟩, by decide, by decide, by decide, ?_⟩
  intro a
  cases a with
  | main => rfl
  | job i =>
    cases i with
    | zero => rfl
    | succ n => rfl

/-! ### C3: retrieval before scan -/

theorem countP_set_add {α : Type} (p : α → Bool) (l : List α) (i : Nat) (old new : α)
    (h : l[i]? = some old) :
    (l.set i new).countP p + (if p old = true then 1 else 0)
      = l.countP p + (if p new = true then 1 else 0) := by
  induction l generalizing i with
  | nil => simp at h
  | cons a as ih =>
    cases i with
    | zero =>
      simp only [List.getElem?_cons_zero, Option.some.injEq] at h
      subst h
      simp only [List.set_cons_zero, List.countP_cons]
      omega
    | succ n =>
      simp only [List.getElem?_cons_succ] at h
      have := ih n h
      simp only [List.set_cons_succ, List.countP_cons]
      omega

theorem owing_set (w : WgRef) (jobs : List Job) (i : Nat) (old new : Job)
    (h : jobs[i]? = some old) :
    owing w (jobs.set i new) + (if (decide (old.wgRef = w) && !old.terminal) = true then 1 else 0)
      = owing w jobs + (if (decide (new.wgRef = w) && !new.terminal) = true then 1 else 0) :=
  countP_set_add _ jobs i old new h

theorem owing_append (w : WgRef) (jobs : List Job) (j : Job) :
    owing w (jobs ++ [j])
      = owing w jobs + (if (decide (j.wgRef = w) && !j.terminal) = true then 1 else 0) := by
  simp [owing, List.countP_append, List.countP_cons]

theorem owing_pos (w : WgRef) (jobs : List Job) (j : Job) (hj : j ∈ jobs)
    (hw : j.wgRef = w) (ht : j.terminal = false) : 0 < owing w jobs := by
  unfold owing
  rw [List.countP_pos_iff]
  exact ⟨j, hj, by simp [hw, ht]⟩

theorem firstWait_tail_none (i : Instr) (rest : List Instr)
    (h : firstWait (i :: rest) = none) : firstWait rest = none := by
  cases i <;> simp_all [firstWait]

/-- Once a scan call has been reached under the invariant, every job is terminal. -/
theorem Inv.all_terminal (s : Sys) (h : Inv s) (hs : s.scans ≠ []) :
    ∀ j ∈ s.jobs, j.terminal = true := by
  have hnone := h.scanned hs
  have hzero : ∀ g, owing (WgRef.main g) s.jobs = 0 := by
    intro g
    by_contra hne
    have hpos : 0 < s.wg (WgRef.main g) := by
      have := h.countersMain g
      omega
    have := h.current g hpos
    rw [hnone] at this
    exact absurd this (by simp)
  intro j hj
  by_contra hterm
  have hterm : j.terminal = false := by simpa using hterm
  cases hw : j.wgRef with
  | main g =>
    have := owing_pos _ _ j hj hw hterm
    have := hzero g
    omega
  | orgclone p =>
    obtain ⟨i, hi⟩ := List.getElem?_of_mem hj
    obtain ⟨repo, dir, g, hp⟩ := h.parent i j p hi hterm hw
    have hmem : Job.executeclone repo dir g ExecPc.waiting ∈ s.jobs :=
      List.getElem?_mem hp
    have := owing_pos (WgRef.main g) _ _ hmem rfl rfl
    have := hzero g
    omega

theorem Inv_start (prog : List Instr) (h : WellFormed prog) : Inv (Sys.start prog) where
  countersMain := by intro g; simp [Sys.start, owing, pendingMain]
  countersLocal := by intro p; simp [Sys.start, owing, pendingLocal]
  parent := by intro i c p hi; simp [Sys.start] at hi
  wf := h
  added := by intro h; simp [Sys.start] at h
  current := by intro g hg; simp [Sys.start] at hg
  scanned := by intro h; simp [Sys.start] at h

theorem Body.toJob_wgRef (g : Nat) (b : Body) : (b.toJob g).wgRef = WgRef.main g := by
  cases b <;> rfl

theorem Body.toJob_terminal (g : Nat) (b : Body) : (b.toJob g).terminal = false := by
  cases b <;> rfl

theorem Body.toJob_reserving (g : Nat) (b : Body) : (b.toJob g).reserving = false := by
  cases b <;> rfl

theorem pendingLocal_append (jobs : List Job) (j : Job) (p : Nat) (hj : j.reserving = false) :
    pendingLocal (jobs ++ [j]) p = pendingLocal jobs p := by
  unfold pendingLocal
  by_cases hlt : p < jobs.length
  · rw [List.getElem?_append_left hlt]
  · have hnone : jobs[p]? = none := List.getElem?_eq_none (by omega)
    rw [List.getElem?_append_right (by omega), hnone]
    cases hq : [j][p - jobs.length]? with
    | none => rfl
    | some x =>
      have : x = j := by
        have := List.getElem?_mem hq
        simpa using this
      subst this
      simp [hj]

theorem ParentWaits_append (jobs : List Job) (j : Job) (h : ParentWaits jobs)
    (hj : j.terminal = false → ∀ p, j.wgRef = WgRef.orgclone p →
      ∃ repo dir g, jobs[p]? = some (Job.executeclone repo dir g ExecPc.waiting)) :
    ParentWaits (jobs ++ [j]) := by
  intro i c p hi ht hw
  have lift : ∀ (q : Nat) (x : Job), jobs[q]? = some x → (jobs ++ [j])[q]? = some x := by
    intro q x hq
    have hlt : q < jobs.length := by
      rw [List.getElem?_eq_some_iff] at hq
      exact hq.1
    rw [List.getElem?_append_left hlt, hq]
  by_cases hlt : i < jobs.length
  · rw [List.getElem?_append_left hlt] at hi
    obtain ⟨repo, dir, g, hp⟩ := h i c p hi ht hw
    exact ⟨repo, dir, g, lift _ _ hp⟩
  · rw [List.getElem?_append_right (by omega)] at hi
    have : c = j := by
      have := List.getElem?_mem hi
      simpa using this
    subst this
    obtain ⟨repo, dir, g, hp⟩ := hj ht p hw
    exact ⟨repo, dir, g, lift _ _ hp⟩

theorem Inv_stepMain (cfg : RunConfig) (s t : Sys) (h : Inv s) (hs : stepMain cfg s = some t) :
    Inv t := by
  obtain ⟨hcm, hcl, hpar, hwf, hadded, hcur, hscan⟩ := h
  unfold stepMain at hs
  cases hprog : s.prog with
  | nil => rw [hprog] at hs; simp at hs
  | cons ins rest =>
    rw [hprog] at hs hcm hwf hadded hcur hscan
    cases ins with
    | submit body g =>
      simp only at hs
      simp only [WellFormed] at hwf
      by_cases hadd : s.added = false
      · simp only [hadd, if_true, Option.some.injEq] at hs
        subst hs
        refine ⟨?_, ?_, hpar, ?_, ?_, ?_, hscan⟩
        · intro g2
          have := hcm g2
          simp only [pendingMain, hadd, Sys.wgAdd] at this ⊢
          by_cases hg : g = g2
          · subst hg; simp at this ⊢; omega
          · have hne : WgRef.main g2 ≠ WgRef.main g := by
              intro e; injection e with e; exact hg e.symm
            simp [hg, hne] at this ⊢; omega
        · intro p
          have := hcl p
          simpa [Sys.wgAdd] using this
        · show WellFormed (Instr.submit body g :: rest)
          simp only [WellFormed]; exact hwf
        · intro _; exact ⟨body, g, rest, rfl⟩
        · intro g2 hpos
          show firstWait (Instr.submit body g :: rest) = some g2
          by_cases hg : g = g2
          · subst hg; simp only [firstWait]; exact hwf.1
          · have hne : WgRef.main g2 ≠ WgRef.main g := by
              intro e; injection e with e; exact hg e.symm
            simp only [Sys.wgAdd, hne, if_false] at hpos
            exact hcur g2 hpos
      · have hadd2 : s.added = true := by simpa using hadd
        simp only [hadd2, Bool.true_eq_false, if_false] at hs
        by_cases hq : s.queue < cfg.threads
        · simp only [hq, if_true, Option.some.injEq] at hs
          subst hs
          refine ⟨?_, ?_, ?_, hwf.2, ?_, ?_, ?_⟩
          · intro g2
            have := hcm g2
            simp only [pendingMain, hadd2, if_true] at this
            simp only [owing_append, Body.toJob_wgRef, Body.toJob_terminal, pendingMain]
            by_cases hg : g = g2
            · subst hg; simp at this ⊢; omega
            · have hne : WgRef.main g ≠ WgRef.main g2 := by
                intro e; injection e with e; exact hg e
              simp [hg, hne] at this ⊢; omega
          · intro p
            have := hcl p
            simp only [owing_append, Body.toJob_wgRef, Body.toJob_terminal,
              pendingLocal_append _ _ _ (Body.toJob_reserving g body)]
            simpa using this
          · apply ParentWaits_append _ _ hpar
            intro _ p hw
            rw [Body.toJob_wgRef] at hw
            exact absurd hw (by simp)
          · intro hf; simp at hf
          · intro g2 hpos
            have := hcur g2 hpos
            simpa [firstWait] using this
          · intro hsc
            have := hscan hsc
            simpa [firstWait] using this
        · simp [hq] at hs
    | wait g =>
      simp only at hs
      have hadd : s.added = false := by
        by_contra hne
        have : s.added = true := by simpa using hne
        obtain ⟨b, g2, r, e⟩ := hadded this
        simp at e
      by_cases hz : s.wg (WgRef.main g) = 0
      · simp only [hz, if_true, Option.some.injEq] at hs
        subst hs
        refine ⟨?_, hcl, hpar, hwf, ?_, ?_, ?_⟩
        · intro g2
          have := hcm g2
          simp only [pendingMain, hadd, Bool.false_eq_true, if_false] at this ⊢
          exact this
        · intro hf; simp [hadd] at hf
        · intro g2 hpos
          have hpos2 : 0 < s.wg (WgRef.main g2) := hpos
          have := hcur g2 hpos2
          simp only [firstWait, Option.some.injEq] at this
          subst this
          omega
        · intro hsc
          have := hscan hsc
          simp [firstWait] at this
      · simp [hz] at hs
    | scan call =>
      simp only [Option.some.injEq] at hs
      have hadd : s.added = false := by
        by_contra hne
        have : s.added = true := by simpa using hne
        obtain ⟨b, g2, r, e⟩ := hadded this
        simp at e
      subst hs
      simp only [WellFormed] at hwf
      refine ⟨?_, hcl, hpar, hwf.2, ?_, ?_, ?_⟩
      · intro g2
        have := hcm g2
        simp only [pendingMain, hadd, Bool.false_eq_true, if_false] at this ⊢
        exact this
      · intro hf; simp [hadd] at hf
      · intro g2 hpos
        have := hcur g2 hpos
        simpa [firstWait] using this
      · intro _; exact hwf.1
    | exit =>
      simp only [Option.some.injEq] at hs
      subst hs
      exact ⟨hcm, hcl, hpar, hwf, hadded, hcur, hscan⟩

theorem owing_set_same (w : WgRef) (jobs : List Job) (i : Nat) (old new : Job)
    (h : jobs[i]? = some old) (hw : new.wgRef = old.wgRef) (ht : new.terminal = old.terminal) :
    owing w (jobs.set i new) = owing w jobs := by
  have := owing_set w jobs i old new h
  rw [hw, ht] at this
  omega

theorem owing_set_done (w : WgRef) (jobs : List Job) (i : Nat) (old new : Job)
    (h : jobs[i]? = some old) (hw : new.wgRef = old.wgRef) (hto : old.terminal = false)
    (htn : new.terminal = true) :
    owing w (jobs.set i new) + (if old.wgRef = w then 1 else 0) = owing w jobs := by
  have := owing_set w jobs i old new h
  rw [hw, hto, htn] at this
  by_cases e : old.wgRef = w <;> simp [e] at this ⊢ <;> omega

theorem pendingLocal_set (jobs : List Job) (i : Nat) (old new : Job) (p : Nat)
    (h : jobs[i]? = some old) :
    pendingLocal (jobs.set i new) p
      = if p = i then (if new.reserving = true then 1 else 0) else pendingLocal jobs p := by
  have hlt : i < jobs.length := by
    rw [List.getElem?_eq_some_iff] at h
    exact h.1
  unfold pendingLocal
  by_cases e : p = i
  · subst e
    simp [List.getElem?_set, hlt]
  · have e2 : i ≠ p := fun x => e x.symm
    simp [List.getElem?_set, e, e2]

theorem pendingLocal_of_getElem? (jobs : List Job) (i : Nat) (old : Job)
    (h : jobs[i]? = some old) :
    pendingLocal jobs i = if old.reserving = true then 1 else 0 := by
  simp [pendingLocal, h]

theorem ParentWaits_set (jobs : List Job) (i : Nat) (old new : Job)
    (hold : jobs[i]? = some old) (h : ParentWaits jobs)
    (hnew : new.terminal = false → ∀ p, new.wgRef ≠ WgRef.orgclone p)
    (hkeep : (∃ repo dir g, new = Job.executeclone repo dir g ExecPc.waiting) ∨
      (∀ (k : Nat) (c : Job), jobs[k]? = some c → c.terminal = false →
        c.wgRef ≠ WgRef.orgclone i)) :
    ParentWaits (jobs.set i new) := by
  have hlt : i < jobs.length := by
    rw [List.getElem?_eq_some_iff] at hold
    exact hold.1
  intro k c p hk ht hw
  by_cases hki : i = k
  · subst hki
    simp only [List.getElem?_set, hlt, if_true, Option.some.injEq] at hk
    subst hk
    exact absurd hw (hnew ht p)
  · simp only [List.getElem?_set, hki, if_false] at hk
    obtain ⟨repo, dir, g, hp⟩ := h k c p hk ht hw
    by_cases hpi : i = p
    · subst hpi
      rcases hkeep with ⟨r2, d2, g2, e⟩ | hno
      · exact ⟨r2, d2, g2, by simp [List.getElem?_set, hlt, e]⟩
      · exact absurd hw (hno k c hk ht)
    · exact ⟨repo, dir, g, by simp [List.getElem?_set, hpi, hp]⟩

theorem ParentWaits.no_child (jobs : List Job) (i : Nat) (old : Job) (h : ParentWaits jobs)
    (hold : jobs[i]? = some old)
    (hnw : ∀ repo dir g, old ≠ Job.executeclone repo dir g ExecPc.waiting) :
    ∀ (k : Nat) (c : Job), jobs[k]? = some c → c.terminal = false →
      c.wgRef ≠ WgRef.orgclone i := by
  intro k c hk ht hw
  obtain ⟨repo, dir, g, hp⟩ := h k c i hk ht hw
  rw [hold] at hp
  injection hp with hp
  exact hnw repo dir g hp

/-- A job moves on without touching a WaitGroup. -/
theorem Inv_set_same (s : Sys) (i : Nat) (old new : Job) (q : Nat) (h : Inv s)
    (hj : s.jobs[i]? = some old) (hw : new.wgRef = old.wgRef)
    (ht : new.terminal = old.terminal) (hr : new.reserving = old.reserving)
    (hnew : new.terminal = false → ∀ p, new.wgRef ≠ WgRef.orgclone p)
    (hnw : ∀ repo dir g, old ≠ Job.executeclone repo dir g ExecPc.waiting) :
    Inv { s with queue := q, jobs := s.jobs.set i new } := by
  obtain ⟨hcm, hcl, hpar, hwf, hadded, hcur, hscan⟩ := h
  refine ⟨?_, ?_, ?_, hwf, hadded, hcur, hscan⟩
  · intro g
    have := hcm g
    simp only [owing_set_same _ _ _ _ _ hj hw ht]
    exact this
  · intro p
    have := hcl p
    simp only [owing_set_same _ _ _ _ _ hj hw ht, pendingLocal_set _ _ _ _ _ hj]
    by_cases e : p = i
    · subst e
      rw [pendingLocal_of_getElem? _ _ _ hj] at this
      simpa [hr] using this
    · simpa [e] using this
  · exact ParentWaits_set _ _ _ _ hj hpar hnew
      (Or.inr (ParentWaits.no_child _ _ _ hpar hj hnw))

/-- A job calls `Done()` on its WaitGroup and becomes terminal. -/
theorem Inv_set_done (s : Sys) (i : Nat) (old new : Job) (e : Bool) (h : Inv s)
    (hj : s.jobs[i]? = some old) (hw : new.wgRef = old.wgRef)
    (hto : old.terminal = false) (htn : new.terminal = true)
    (hro : old.reserving = false) (hrn : new.reserving = false)
    (hno : ∀ (k : Nat) (c : Job), s.jobs[k]? = some c → c.terminal = false →
        c.wgRef ≠ WgRef.orgclone i) :
    Inv { s with wg := s.wgDone old.wgRef, jobs := s.jobs.set i new, ended := e } := by
  obtain ⟨hcm, hcl, hpar, hwf, hadded, hcur, hscan⟩ := h
  refine ⟨?_, ?_, ?_, hwf, hadded, ?_, hscan⟩
  · intro g
    have h1 := hcm g
    have h2 := owing_set_done (WgRef.main g) _ _ _ _ hj hw hto htn
    simp only [Sys.wgDone]
    by_cases e : old.wgRef = WgRef.main g
    · simp only [e, if_true] at h2 ⊢
      omega
    · have e2 : ¬ (WgRef.main g = old.wgRef) := fun x => e x.symm
      simp only [e, e2, if_false] at h2 ⊢
      omega
  · intro p
    have h1 := hcl p
    have h2 := owing_set_done (WgRef.orgclone p) _ _ _ _ hj hw hto htn
    have h3 : pendingLocal (s.jobs.set i new) p = pendingLocal s.jobs p := by
      rw [pendingLocal_set _ _ _ _ _ hj]
      by_cases e : p = i
      · subst e
        rw [pendingLocal_of_getElem? _ _ _ hj]
        simp [hro, hrn]
      · simp [e]
    simp only [Sys.wgDone, h3]
    by_cases e : old.wgRef = WgRef.orgclone p
    · simp only [e, if_true] at h2 ⊢
      omega
    · have e2 : ¬ (WgRef.orgclone p = old.wgRef) := fun x => e x.symm
      simp only [e, e2, if_false] at h2 ⊢
      omega
  · exact ParentWaits_set _ _ _ _ hj hpar (fun hf => by rw [htn] at hf; exact absurd hf (by simp))
      (Or.inr hno)
  · intro g hpos
    apply hcur g
    simp only [Sys.wgDone] at hpos
    split at hpos <;> omega

theorem Inv_stepJob (cfg : RunConfig) (s t : Sys) (i : Nat) (h : Inv s)
    (hs : stepJob cfg s i = some t) : Inv t := by
  unfold stepJob at hs
  cases hj : s.jobs[i]? with
  | none => rw [hj] at hs; simp at hs
  | some j =>
    rw [hj] at hs
    cases j with
    | executeclone repo dir g pc =>
      cases pc with
      | spawned =>
        simp only at hs
        cases hx : executeclone cfg.cloneForks cfg.scanPrivateReposOnly repo dir with
        | none =>
          rw [hx] at hs
          simp only [Option.some.injEq] at hs
          subst hs
          exact Inv_set_same s i _ _ s.queue h hj rfl rfl rfl
            (fun _ p => by simp [Job.wgRef]) (fun _ _ _ => by simp)
        | some c =>
          rw [hx] at hs
          simp only [Option.some.injEq] at hs
          subst hs
          obtain ⟨hcm, hcl, hpar, hwf, hadded, hcur, hscan⟩ := h
          refine ⟨?_, ?_, ?_, hwf, hadded, ?_, hscan⟩
          · intro g2
            have := hcm g2
            simp only [owing_set_same _ _ _ _ _ hj
              (rfl : (Job.executeclone repo dir g (ExecPc.reserving c.1)).wgRef = _) rfl,
              Sys.wgAdd]
            simpa using this
          · intro p
            have := hcl p
            simp only [owing_set_same _ _ _ _ _ hj
              (rfl : (Job.executeclone repo dir g (ExecPc.reserving c.1)).wgRef = _) rfl,
              pendingLocal_set _ _ _ _ _ hj, Sys.wgAdd]
            by_cases e : p = i
            · subst e
              rw [pendingLocal_of_getElem? _ _ _ hj] at this
              simp [Job.reserving] at this ⊢
              omega
            · have e2 : WgRef.orgclone p ≠ WgRef.orgclone i := by
                intro x; injection x with x; exact e x
              simpa [e, e2] using this
          · exact ParentWaits_set _ _ _ _ hj hpar (fun _ p => by simp [Job.wgRef])
              (Or.inr (ParentWaits.no_child _ _ _ hpar hj (fun _ _ _ => by simp)))
          · intro g2 hpos
            apply hcur g2
            simpa [Sys.wgAdd] using hpos
      | reserving url =>
        simp only at hs
        by_cases hq : s.queue < cfg.threads
        · simp only [hq, if_true, Option.some.injEq] at hs
          subst hs
          obtain ⟨hcm, hcl, hpar, hwf, hadded, hcur, hscan⟩ := h
          have hlt : i < s.jobs.length := by
            rw [List.getElem?_eq_some_iff] at hj
            exact hj.1
          have hsame : ∀ w, owing w (s.jobs.set i (Job.executeclone repo dir g ExecPc.waiting))
              = owing w s.jobs := fun w => owing_set_same w _ _ _ _ hj rfl rfl
          refine ⟨?_, ?_, ?_, hwf, hadded, hcur, hscan⟩
          · intro g2
            have := hcm g2
            simp only [owing_append, hsame]
            simpa [Job.wgRef] using this
          · intro p
            have := hcl p
            simp only [owing_append, hsame,
              pendingLocal_append _ _ _ (rfl : (Job.gitclone url dir (WgRef.orgclone i)
                GitPc.spawned).reserving = false),
              pendingLocal_set _ _ _ _ _ hj]
            by_cases e : p = i
            · subst e
              rw [pendingLocal_of_getElem? _ _ _ hj] at this
              simp [Job.reserving, Job.wgRef, Job.terminal] at this ⊢
              omega
            · have e2 : WgRef.orgclone i ≠ WgRef.orgclone p := by
                intro x; injection x with x; exact e x.symm
              simpa [e, e2, Job.wgRef] using this
          · apply ParentWaits_append
            · exact ParentWaits_set _ _ _ _ hj hpar (fun _ p => by simp [Job.wgRef])
                (Or.inl ⟨repo, dir, g, rfl⟩)
            · intro _ p hw
              simp only [Job.wgRef, WgRef.orgclone.injEq] at hw
              subst hw
              exact ⟨repo, dir, g, by simp [List.getElem?_set, hlt]⟩
        · simp [hq] at hs
      | waiting =>
        simp only at hs
        by_cases hz : s.wg (WgRef.orgclone i) = 0
        · simp only [hz, if_true, Option.some.injEq] at hs
          subst hs
          have hno : ∀ (k : Nat) (c : Job), s.jobs[k]? = some c → c.terminal = false →
              c.wgRef ≠ WgRef.orgclone i := by
            intro k c hk ht hw
            have h1 := owing_pos _ _ c (List.getElem?_mem hk) hw ht
            have h2 := h.countersLocal i
            omega
          exact Inv_set_done s i (Job.executeclone repo dir g ExecPc.waiting) _ s.ended h hj
            rfl rfl rfl rfl rfl hno
        · simp [hz] at hs
      | returned =>
        simp only at hs
        by_cases hq : 0 < s.queue
        · simp only [hq, if_true, Option.some.injEq] at hs
          subst hs
          exact Inv_set_same s i _ _ (s.queue - 1) h hj rfl rfl rfl
            (fun hf => by simp [Job.terminal] at hf) (fun _ _ _ => by simp)
        · simp [hq] at hs
      | finished => simp at hs
    | gitclone url dir w pc =>
      cases pc with
      | spawned =>
        simp only at hs
        have hno := ParentWaits.no_child _ _ _ h.parent hj (fun _ _ _ => by simp)
        cases hg : gitclone cfg.git url dir with
        | ok u =>
          rw [hg] at hs
          simp only [Option.some.injEq] at hs
          subst hs
          exact Inv_set_done s i (Job.gitclone url dir w GitPc.spawned) _ s.ended h hj
            rfl rfl rfl rfl rfl hno
        | error e =>
          rw [hg] at hs
          simp only [Option.some.injEq] at hs
          subst hs
          exact Inv_set_done s i (Job.gitclone url dir w GitPc.spawned) _ true h hj
            rfl rfl rfl rfl rfl hno
      | returned =>
        simp only at hs
        by_cases hq : 0 < s.queue
        · simp only [hq, if_true, Option.some.injEq] at hs
          subst hs
          exact Inv_set_same s i _ _ (s.queue - 1) h hj rfl rfl rfl
            (fun hf => by simp [Job.terminal] at hf) (fun _ _ _ => by simp)
        · simp [hq] at hs
      | failed => simp at hs
      | finished => simp at hs

theorem Inv_step (cfg : RunConfig) (s t : Sys) (a : Action) (h : Inv s)
    (hs : step cfg s a = some t) : Inv t := by
  unfold step at hs
  split at hs
  · simp at hs
  · cases a with
    | main => exact Inv_stepMain cfg s t h hs
    | job i => exact Inv_stepJob cfg s t i h hs

theorem Inv_run (cfg : RunConfig) (sched : List Action) (s : Sys) (h : Inv s) :
    Inv (run cfg s sched) := by
  induction sched generalizing s with
  | nil => simpa [run] using h
  | cons a as ih =>
    have hstep : Inv ((step cfg s a).getD s) := by
      cases hq : step cfg s a with
      | none => simpa using h
      | some t => simpa using Inv_step cfg s t a h hq
    simpa [run] using ih _ hstep

theorem firstWait_submits {α : Type} (f : α → Body) (g : Nat) (l : List α) (rest : List Instr) :
    firstWait (l.map (fun c => Instr.submit (f c) g) ++ rest) = firstWait rest := by
  induction l with
  | nil => rfl
  | cons a as ih => simpa [firstWait] using ih

theorem WellFormed_block {α : Type} (f : α → Body) (g : Nat) (l : List α) (rest : List Instr)
    (h : WellFormed rest) :
    WellFormed (l.map (fun c => Instr.submit (f c) g) ++ Instr.wait g :: rest) := by
  induction l with
  | nil => simpa [WellFormed] using h
  | cons a as ih =>
    have e := firstWait_submits f g as (Instr.wait g :: rest)
    simp only [firstWait] at e
    exact ⟨e, ih⟩

theorem WellFormed_cloneorgrepos (g : Nat) (repos : List Repository) (rest : List Instr)
    (h : WellFormed rest) : WellFormed (cloneorgrepos g repos ++ rest) := by
  simp only [cloneorgrepos, List.append_assoc, List.singleton_append]
  exact WellFormed_block _ g _ rest h

theorem WellFormed_cloneTeamRepos (g : Nat) (repos : Option (List Repository))
    (rest : List Instr) (h : WellFormed rest) : WellFormed (cloneTeamRepos g repos ++ rest) := by
  cases repos with
  | none => simpa [cloneTeamRepos, WellFormed] using h
  | some l =>
    simp only [cloneTeamRepos, List.append_assoc, List.singleton_append]
    exact WellFormed_block _ g _ rest h

theorem WellFormed_cloneuserrepos (g : Nat) (user : Str) (repos : List Repository)
    (rest : List Instr) (h : WellFormed rest) :
    WellFormed (cloneuserrepos g user repos ++ rest) := by
  simp only [cloneuserrepos, List.append_assoc, List.singleton_append]
  exact WellFormed_block _ g _ rest h

theorem WellFormed_cloneusergists (g : Nat) (user : Str) (gists : List Gist)
    (rest : List Instr) (h : WellFormed rest) :
    WellFormed (cloneusergists g user gists ++ rest) := by
  simp only [cloneusergists, List.append_assoc, List.singleton_append]
  exact WellFormed_block _ g _ rest h

theorem WellFormed_cloneMembers (ms : List Member) (k : Nat) (rest : List Instr)
    (h : WellFormed rest) : WellFormed (cloneMembers ms k ++ rest) := by
  induction ms generalizing k with
  | nil => simpa [cloneMembers] using h
  | cons m ms ih =>
    simp only [cloneMembers, List.append_assoc]
    exact WellFormed_cloneuserrepos _ _ _ _ (WellFormed_cloneusergists _ _ _ _ (ih (k + 1)))

theorem WellFormed_scans {α : Type} (f : α → ScanCall) (l : List α) :
    firstWait (l.map (fun m => Instr.scan (f m))) = none ∧
      WellFormed (l.map (fun m => Instr.scan (f m))) := by
  induction l with
  | nil => exact ⟨rfl, trivial⟩
  | cons a as ih =>
    simp only [List.map_cons, firstWait, WellFormed]
    exact ⟨ih.1, ih.1, ih.2⟩

theorem WellFormed_mainOrg (teamName : Str) (orgOnly : Bool) (orgRepos : List Repository)
    (teamRepos : Option (List Repository)) (allUsers : List Member) :
    WellFormed (mainOrg teamName orgOnly orgRepos teamRepos allUsers) := by
  have husers := WellFormed_scans (fun m : Member => ScanCall.scanforeachuser m.Login) allUsers
  have hnil : firstWait ([] : List Instr) = none ∧ WellFormed ([] : List Instr) :=
    ⟨rfl, trivial⟩
  have hcons : ∀ (c : ScanCall) (rest : List Instr),
      firstWait rest = none ∧ WellFormed rest →
      firstWait (Instr.scan c :: rest) = none ∧ WellFormed (Instr.scan c :: rest) := by
    intro c rest h
    simp only [firstWait, WellFormed]
    exact ⟨h.1, h.1, h.2⟩
  unfold mainOrg
  by_cases ht : teamName = [] <;> cases orgOnly <;>
    simp only [ht, ne_eq, not_true_eq_false, not_false_eq_true, if_true, if_false,
      Bool.true_eq_false, List.append_assoc, List.append_nil, List.nil_append,
      List.singleton_append, List.cons_append]
  · exact WellFormed_cloneorgrepos _ _ _ (WellFormed_cloneMembers _ _ _ (hcons _ _ husers).2)
  · exact WellFormed_cloneorgrepos _ _ _ (hcons _ _ hnil).2
  · exact WellFormed_cloneorgrepos _ _ _ (WellFormed_cloneTeamRepos _ _ _
      (WellFormed_cloneMembers _ _ _ (hcons _ _ (hcons _ _ husers)).2))
  · exact WellFormed_cloneorgrepos _ _ _ (WellFormed_cloneTeamRepos _ _ _
      (hcons _ _ (hcons _ _ hnil)).2)

/-- C3: in organization mode, for every pool width, every listing and every
schedule of the goroutines, once the main goroutine has reached a call of
`scanorgrepos`, `scanTeamRepos` or `scanforeachuser`, every job submitted by
`cloneorgrepos`, `cloneTeamRepos`, `cloneuserrepos` and `cloneusergists` (every
`executeclone` and every `gitclone`) has reached a terminal state and the
counter of every WaitGroup the main goroutine waits on is zero: the completion
barriers have been passed.  Since this holds in every state from the first scan
call on, no retrieval is submitted or running after it either. -/
theorem C3_scan_only_after_retrievals_terminal (cfg : RunConfig) (teamName : Str)
    (orgOnly : Bool) (orgRepos : List Repository) (teamRepos : Option (List Repository))
    (allUsers : List Member) (sched : List Action)
    (hscan : (run cfg (Sys.start (mainOrg teamName orgOnly orgRepos teamRepos allUsers))
        sched).scans ≠ []) :
    (∀ j ∈ (run cfg (Sys.start (mainOrg teamName orgOnly orgRepos teamRepos allUsers))
        sched).jobs, j.terminal = true) ∧
    (∀ g, (run cfg (Sys.start (mainOrg teamName orgOnly orgRepos teamRepos allUsers))
        sched).wg (WgRef.main g) = 0) := by
  have hinv := Inv_run cfg sched _
    (Inv_start _ (WellFormed_mainOrg teamName orgOnly orgRepos teamRepos allUsers))
  refine ⟨Inv.all_terminal _ hinv hscan, ?_⟩
  intro g
  by_contra hne
  have := hinv.current g (by omega)
  rw [hinv.scanned hscan] at this
  exact absurd this (by simp)

theorem C3_scan_only_after_retrievals_terminal_witness :
    (run widthTwo (Sys.start (mainOrg [] true [repoA] none [])) cloneThenScan).scans
      = [ScanCall.scanorgrepos] ∧
    (run widthTwo (Sys.start (mainOrg [] true [repoA] none [])) cloneThenScan).jobs
      = [Job.executeclone repoA "/tmp/repos/org/a".toList 0 ExecPc.finished,
         Job.gitclone "https://github.com/o/a.git".toList "/tmp/repos/org/a".toList
           (WgRef.orgclone 0) GitPc.finished] ∧
    ((∀ j ∈ (run widthTwo (Sys.start (mainOrg [] true [repoA] none [])) cloneThenScan).jobs,
        j.terminal = true) ∧
     (∀ g, (run widthTwo (Sys.start (mainOrg [] true [repoA] none []))
        cloneThenScan).wg (WgRef.main g) = 0)) :=
  ⟨by decide, by decide,
    C3_scan_only_after_retrievals_terminal widthTwo [] true [repoA] none [] cloneThenScan
      (by decide)⟩

/-! ### C2 for every pool width -/

theorem run_append (cfg : RunConfig) (s : Sys) (a b : List Action) :
    run cfg s (a ++ b) = run cfg (run cfg s a) b := by
  simp [run, List.foldl_append]

theorem Filling_round (cfg : RunConfig) (s : Sys) (k : Nat) (c : Repository × Str)
    (cs : List (Repository × Str)) (h : Filling s k (c :: cs)) (hk : k < cfg.threads)
    (hc : executeclone cfg.cloneForks cfg.scanPrivateReposOnly c.1 c.2 ≠ none) :
    Filling (run cfg s [Action.main, Action.main, Action.job k]) (k + 1) cs := by
  obtain ⟨hq, hlen, hres, hadd, hend, hprog⟩ := h
  cases hx : executeclone cfg.cloneForks cfg.scanPrivateReposOnly c.1 c.2 with
  | none => exact absurd hx hc
  | some x =>
    have hq2 : s.queue < cfg.threads := by omega
    have hget : (s.jobs ++ [Job.executeclone c.1 c.2 0 ExecPc.spawned])[k]?
        = some (Job.executeclone c.1 c.2 0 ExecPc.spawned) := by
      rw [List.getElem?_append_right (by omega)]
      simp [hlen]
    have hset : (s.jobs ++ [Job.executeclone c.1 c.2 0 ExecPc.spawned]).set k
          (Job.executeclone c.1 c.2 0 (ExecPc.reserving x.1))
        = s.jobs ++ [Job.executeclone c.1 c.2 0 (ExecPc.reserving x.1)] := by
      rw [← hlen]
      simp [List.set_append]
    simp only [run, List.foldl_cons, List.foldl_nil, step, hend, Bool.false_eq_true, if_false,
      stepMain, hprog, List.map_cons, List.cons_append, hadd, if_true, Option.getD_some,
      Bool.true_eq_false, hq2, Body.toJob, stepJob, hget, hx, hset]
    refine ⟨by simp [hq], by simp [hlen], ?_, rfl, rfl, rfl⟩
    simp [List.filter_append, hres, Job.reserving]

theorem Filling_fill (cfg : RunConfig) (n : Nat) :
    ∀ (s : Sys) (k : Nat) (cs : List (Repository × Str)), Filling s k cs →
      k + n ≤ cfg.threads → n ≤ cs.length →
      (∀ c ∈ cs, executeclone cfg.cloneForks cfg.scanPrivateReposOnly c.1 c.2 ≠ none) →
      Filling (run cfg s (fillSchedule n k)) (k + n) (cs.drop n) := by
  induction n with
  | zero => intro s k cs h _ _ _; simpa [fillSchedule, run] using h
  | succ n ih =>
    intro s k cs h hk hlen hc
    cases cs with
    | nil => simp at hlen
    | cons c cs =>
      have h1 := Filling_round cfg s k c cs h (by omega) (hc c (List.mem_cons_self _ _))
      have h2 := ih _ (k + 1) cs h1 (by omega) (by simpa using hlen)
        (fun d hd => hc d (List.mem_cons_of_mem _ hd))
      rw [fillSchedule, run_append]
      have e : k + (n + 1) = k + 1 + n := by omega
      rw [e]
      simpa using h2

/-- For every pool width `N >= 1`: when the organization lists at least `N`
repositories that `executeclone` clones, `cloneorgrepos` can reach a state in
which all `N` slots are held by `executeclone` jobs that are each blocked
waiting to reserve a further slot. -/
theorem cloneorgrepos_can_block_all_slots (cfg : RunConfig) (orgRepos : List Repository)
    (hlen : cfg.threads ≤ orgRepos.length)
    (hclone : ∀ r ∈ orgRepos, cfg.cloneForks = true ∨ r.Fork = false) :
    (run cfg (Sys.start (cloneorgrepos 0 orgRepos)) (fillSchedule cfg.threads 0)).allSlotsBlocked
      cfg := by
  have hstart : Filling (Sys.start (cloneorgrepos 0 orgRepos)) 0 (cloneorgreposCalls orgRepos) :=
    ⟨rfl, rfl, rfl, rfl, rfl, rfl⟩
  have hc : ∀ c ∈ cloneorgreposCalls orgRepos,
      executeclone cfg.cloneForks cfg.scanPrivateReposOnly c.1 c.2 ≠ none := by
    intro c hmem
    simp only [cloneorgreposCalls, List.mem_map] at hmem
    obtain ⟨r, hr, rfl⟩ := hmem
    have h1 := executeclone_isSome cfg.cloneForks cfg.scanPrivateReposOnly r
      ("/tmp/repos/org/".toList ++ r.Name)
    intro hnone
    rw [hnone] at h1
    rcases hclone r hr with h2 | h2 <;> simp [h2] at h1
  have h := Filling_fill cfg cfg.threads _ 0 _ hstart (by omega)
    (by simpa [cloneorgreposCalls] using hlen) hc
  obtain ⟨hq, _, hres, _⟩ := h
  exact ⟨by simpa using hq, by simpa using hres⟩

/-! ### C12: artifact paths of distinct invocations -/

theorem artifactFile_ne (pre1 pre2 o1 r1 u1 o2 r2 u2 : Str) (hne : u1 ≠ u2)
    (hlen : u1.length = u2.length) :
    pre1 ++ artifactFile o1 r1 u1 ≠ pre2 ++ artifactFile o2 r2 u2 := by
  intro h
  have e1 : pre1 ++ artifactFile o1 r1 u1
      = (pre1 ++ o1 ++ "_".toList ++ r1 ++ "_".toList) ++ (u1 ++ ".txt".toList) := by
    simp [artifactFile, List.append_assoc]
  have e2 : pre2 ++ artifactFile o2 r2 u2
      = (pre2 ++ o2 ++ "_".toList ++ r2 ++ "_".toList) ++ (u2 ++ ".txt".toList) := by
    simp [artifactFile, List.append_assoc]
  rw [e1, e2] at h
  have h2 := (List.append_inj' h (by simp [hlen])).2
  exact hne ((List.append_left_inj _).mp h2)

/-- C12: for each of the three tools and any two scan invocations whose
run-unique suffixes are distinct strings of equal length (as two distinct UUID
strings are), the artifact paths
`"/tmp/results/<tool>/" + owner + "_" + name + "_" + suffix + ".txt"` built by the
runners are distinct, whatever the directories, owners and names of the two
invocations, the same (owner, name) pair included. -/
theorem C12_artifact_paths_distinct (env1 env2 : ScanEnv) (tool : Scanner)
    (filepath1 reponame1 orgoruser1 filepath2 reponame2 orgoruser2 : Str)
    (hne : env1.uuid tool ≠ env2.uuid tool)
    (hlen : (env1.uuid tool).length = (env2.uuid tool).length) :
    (match tool with
      | Scanner.gitsecrets => (cmd2 env1 filepath1 reponame1 orgoruser1).outputFile
      | Scanner.thog => (cmd1 env1 filepath1 reponame1 orgoruser1).outputFile
      | Scanner.reposupervisor => (cmd3 env1 filepath1 reponame1 orgoruser1).outputFile) ≠
    (match tool with
      | Scanner.gitsecrets => (cmd2 env2 filepath2 reponame2 orgoruser2).outputFile
      | Scanner.thog => (cmd1 env2 filepath2 reponame2 orgoruser2).outputFile
      | Scanner.reposupervisor => (cmd3 env2 filepath2 reponame2 orgoruser2).outputFile) ∧
    (match tool with
      | Scanner.gitsecrets => (cmd2 env1 filepath1 reponame1 orgoruser1).outputFile
      | Scanner.thog => (cmd1 env1 filepath1 reponame1 orgoruser1).outputFile
      | Scanner.reposupervisor => (cmd3 env1 filepath1 reponame1 orgoruser1).outputFile)
      = "/tmp/results/".toList ++ tool.dir ++ "/".toList ++ orgoruser1 ++ "_".toList ++
          reponame1 ++ "_".toList ++ env1.uuid tool ++ ".txt".toList := by
  cases tool
  · exact ⟨artifactFile_ne _ _ _ _ _ _ _ _ hne hlen, by simp [cmd2, artifactFile, Scanner.dir]⟩
  · exact ⟨artifactFile_ne _ _ _ _ _ _ _ _ hne hlen, by simp [cmd1, artifactFile, Scanner.dir]⟩
  · exact ⟨artifactFile_ne _ _ _ _ _ _ _ _ hne hlen, by simp [cmd3, artifactFile, Scanner.dir]⟩

theorem C12_artifact_paths_distinct_witness :
    (cmd2 firstInvocation "/tmp/repos/org/r/".toList "r".toList "o".toList).outputFile ≠
      (cmd2 secondInvocation "/tmp/repos/org/r/".toList "r".toList "o".toList).outputFile :=
  (C12_artifact_paths_distinct firstInvocation secondInvocation Scanner.gitsecrets
    "/tmp/repos/org/r/".toList "r".toList "o".toList "/tmp/repos/org/r/".toList "r".toList
    "o".toList (by decide) (by decide)).1

/-! ### C13: the labels of the single-repository branch -/

theorem Split_no_sep (s : Str) (sep : Char) (h : sep ∉ s) : Split s sep = [s] := by
  induction s with
  | nil => rfl
  | cons c cs ih =>
    have hc : c ≠ sep := fun e => h (by simp [e])
    have hcs : sep ∉ cs := fun e => h (by simp [e])
    simp only [Split, hc, if_false, ih hcs]

/-- For an owner without `/` and a repository name without `/` and without
`.`, the single-repository branch derives the owner, the name and the clone
target of the repository from its HTTPS URL. -/
theorem mainSingleURL_plain (o r : Str) (ho : '/' ∉ o) (hr : '/' ∉ r) (hdot : '.' ∉ r) :
    mainSingleURL ("https://github.com/".toList ++ o ++ "/".toList ++ r ++ ".git".toList) []
        false
      = some { url := "https://github.com/".toList ++ o ++ "/".toList ++ r ++ ".git".toList,
               orgoruserName := o, rn := r,
               fpath := "/tmp/repos/singlerepo/".toList ++ r } := by
  have hurl : "https://github.com/".toList ++ o ++ "/".toList ++ r ++ ".git".toList
      = "https:".toList ++ '/' :: ([] ++ '/' :: ("github.com".toList ++ '/' ::
          (o ++ '/' :: (r ++ ".git".toList)))) := by
    simp [List.append_assoc]
  have hlast : '/' ∉ r ++ ".git".toList := by
    intro hm
    rcases List.mem_append.mp hm with h1 | h1
    · exact hr h1
    · exact absurd h1 (by decide)
  have hsplit : Split ("https://github.com/".toList ++ o ++ "/".toList ++ r ++ ".git".toList) '/'
      = ["https:".toList, [], "github.com".toList, o, r ++ ".git".toList] := by
    rw [hurl, Split_append_sep _ _ _ (by decide), Split_append_sep _ _ _ (by simp),
      Split_append_sep _ _ _ (by decide), Split_append_sep _ _ _ ho, Split_no_sep _ _ hlast]
  have hname : Split (r ++ ".git".toList) '.' = [r, "git".toList] := by
    have e : r ++ ".git".toList = r ++ '.' :: "git".toList := rfl
    rw [e, Split_append_sep _ _ _ hdot, Split_no_sep _ _ (by decide)]
  have hne : "https://github.com/".toList ++ o ++ "/".toList ++ r ++ ".git".toList ≠ [] := by
    simp
  have hname2 : Split (r ++ ['.', 'g', 'i', 't']) '.' = [r, ['g', 'i', 't']] := hname
  simp only [mainSingleURL, hne, ne_eq, not_false_eq_true, if_true, hsplit]
  simp [hname2, List.append_assoc]

/-- C13 (the code at the failing input): for the repository `socket.io` of
the owner `socketio` the single-repository branch derives the owner label
`socketio`, but the name label `socket` and the clone target
`/tmp/repos/singlerepo/socket`: `strings.Split(lastString, ".")[0]` cuts the
name at its first dot. -/
theorem C13_name_label_cut_at_first_dot :
    mainSingleURL ("https://github.com/".toList ++ "socketio".toList ++ "/".toList ++
        "socket.io".toList ++ ".git".toList) [] false
      = some { url := "https://github.com/socketio/socket.io.git".toList,
               orgoruserName := "socketio".toList, rn := "socket".toList,
               fpath := "/tmp/repos/singlerepo/socket".toList } ∧
    "socket".toList ≠ "socket.io".toList := by
  constructor <;> decide

/-! ### C11: the listing loops follow the pagination to the end -/

theorem listPages_chain {α : Type} (fetch : ListingSource α) (chain : List (Nat × List α)) :
    ∀ (page fuel : Nat) (requested : List Nat) (acc : List α),
      ServesChain fetch page chain → chain.length ≤ fuel →
      listPages fetch fuel page requested acc
        = Listed.done (requested ++ chainPages chain) (acc ++ chainItems chain) := by
  induction chain with
  | nil => intro page fuel requested acc h; exact absurd h (by simp [ServesChain])
  | cons x rest ih =>
    intro page fuel requested acc h hfuel
    cases fuel with
    | zero => simp at hfuel
    | succ fuel =>
      cases rest with
      | nil =>
        obtain ⟨hp, hf⟩ := h
        simp [listPages, hf, chainPages, chainItems, hp]
      | cons y rest =>
        obtain ⟨hp, hy, hf, hrest⟩ := h
        have hlen : (y :: rest).length ≤ fuel := by simpa using hfuel
        have := ih y.1 fuel (requested ++ [page]) (acc ++ x.2) hrest hlen
        simp only [listPages, hf, hy, if_false, this]
        simp [chainPages, chainItems, hp, List.append_assoc]

theorem ServesChain_det {α : Type} (fetch : ListingSource α) (l1 : List (Nat × List α)) :
    ∀ (page : Nat) (l2 : List (Nat × List α)),
      ServesChain fetch page l1 → ServesChain fetch page l2 → l1 = l2 := by
  induction l1 with
  | nil => intro page l2 h; exact absurd h (by simp [ServesChain])
  | cons x rest ih =>
    intro page l2 h1 h2
    cases l2 with
    | nil => exact absurd h2 (by simp [ServesChain])
    | cons x2 rest2 =>
      cases rest with
      | nil =>
        obtain ⟨hp, hf⟩ := h1
        cases rest2 with
        | nil =>
          obtain ⟨hp2, hf2⟩ := h2
          rw [hf] at hf2
          simp only [Option.some.injEq, Prod.mk.injEq, and_true] at hf2
          have : x = x2 := Prod.ext (by rw [hp, hp2]) hf2
          rw [this]
        | cons y2 r2 =>
          obtain ⟨_, hy2, hf2, _⟩ := h2
          rw [hf] at hf2
          simp only [Option.some.injEq, Prod.mk.injEq] at hf2
          exact absurd hf2.2.symm hy2
      | cons y r =>
        obtain ⟨hp, hy, hf, hrest⟩ := h1
        cases rest2 with
        | nil =>
          obtain ⟨_, hf2⟩ := h2
          rw [hf] at hf2
          simp only [Option.some.injEq, Prod.mk.injEq] at hf2
          exact absurd hf2.2 hy
        | cons y2 r2 =>
          obtain ⟨hp2, _, hf2, hrest2⟩ := h2
          rw [hf] at hf2
          simp only [Option.some.injEq, Prod.mk.injEq] at hf2
          have hx : x = x2 := Prod.ext (by rw [hp, hp2]) hf2.1
          rw [← hf2.2] at hrest2
          have := ih y.1 (y2 :: r2) hrest hrest2
          rw [hx, this]

theorem ServesChain_suffix {α : Type} (fetch : ListingSource α) (pre : List (Nat × List α)) :
    ∀ (page : Nat) (z : Nat × List α) (post : List (Nat × List α)),
      ServesChain fetch page (pre ++ z :: post) → ServesChain fetch z.1 (z :: post) := by
  induction pre with
  | nil =>
    intro page z post h
    cases post with
    | nil => exact ⟨rfl, by obtain ⟨hp, hf⟩ := h; rw [hp]; exact hf⟩
    | cons y r =>
      obtain ⟨hp, hy, hf, hrest⟩ := h
      exact ⟨rfl, hy, by rw [hp]; exact hf, hrest⟩
  | cons x pre ih =>
    intro page z post h
    cases pre with
    | nil =>
      obtain ⟨_, _, _, hrest⟩ := h
      exact ih z.1 z post hrest
    | cons y pre2 =>
      obtain ⟨_, _, _, hrest⟩ := h
      exact ih y.1 z post hrest

theorem ServesChain_nodup {α : Type} (fetch : ListingSource α) (chain : List (Nat × List α)) :
    ∀ (page : Nat), ServesChain fetch page chain → (chainPages chain).Nodup := by
  induction chain with
  | nil => intro page h; exact absurd h (by simp [ServesChain])
  | cons x rest ih =>
    intro page h
    have htail : (chainPages rest).Nodup := by
      cases rest with
      | nil => simp [chainPages]
      | cons y r =>
        obtain ⟨_, _, _, hrest⟩ := h
        exact ih y.1 hrest
    have hhead : x.1 ∉ chainPages rest := by
      intro hmem
      simp only [chainPages, List.mem_map] at hmem
      obtain ⟨z, hz, hzx⟩ := hmem
      obtain ⟨pre, post, hsplit⟩ := List.append_of_mem hz
      have hsuf : ServesChain fetch z.1 (z :: post) := by
        have := ServesChain_suffix fetch (x :: pre) page z post (by simpa [hsplit] using h)
        exact this
      have hself : ServesChain fetch z.1 (x :: rest) := by
        have := ServesChain_suffix fetch [] page x rest (by simpa using h)
        rw [hzx]
        exact this
      have := ServesChain_det fetch _ _ _ hsuf hself
      have hl := congrArg List.length this
      rw [hsplit] at hl
      simp at hl
      omega
    show (x.1 :: chainPages rest).Nodup
    exact List.nodup_cons.mpr ⟨hhead, htail⟩

theorem coordinatorSteps_chain {α : Type} (fetch : ListingSource α)
    (chain : List (Nat × List α)) (fuel : Nat) (instrs : List α → List Instr)
    (h : ServesChain fetch 0 chain) (hfuel : chain.length ≤ fuel) :
    coordinatorSteps fetch fuel instrs
      = some ((chainPages chain).map CoordinatorStep.request ++
          (instrs (chainItems chain)).map CoordinatorStep.instr) := by
  have := listPages_chain fetch chain 0 fuel [] [] h hfuel
  simp only [List.nil_append] at this
  simp only [coordinatorSteps, this]

/-- C11: when the listing source serves a finite chain of `k >= 1` pages from
`opt.Page = 0` without error (each page but the last names the next page, the
last one reports `NextPage` 0), the loop of `listallusers`, given at least `k`
iterations, ends after requesting each of the `k` pages exactly once, in chain
order, with the concatenation of the items of all the pages in page order; the
same loop in `cloneorgrepos`, `cloneuserrepos`, `cloneusergists` and
`cloneTeamRepos` makes the same requests, and every submission and the wait of
the coordinator come after the last request and are built from that
concatenation. -/
theorem C11_listing_follows_pagination (fetchUsers : ListingSource User)
    (fetchRepos : ListingSource Repository) (fetchGists : ListingSource Gist)
    (users : List (Nat × List User)) (repos : List (Nat × List Repository))
    (gists : List (Nat × List Gist)) (fuel g : Nat) (user : Str)
    (hu : ServesChain fetchUsers 0 users) (hr : ServesChain fetchRepos 0 repos)
    (hg : ServesChain fetchGists 0 gists)
    (hfu : users.length ≤ fuel) (hfr : repos.length ≤ fuel) (hfg : gists.length ≤ fuel) :
    listallusers fetchUsers fuel = Listed.done (chainPages users) (chainItems users) ∧
    (chainPages users).Nodup ∧ (chainPages users).length = users.length ∧ 1 ≤ users.length ∧
    cloneorgreposSteps fetchRepos fuel g
      = some ((chainPages repos).map CoordinatorStep.request ++
          (cloneorgrepos g (chainItems repos)).map CoordinatorStep.instr) ∧
    cloneuserreposSteps fetchRepos fuel g user
      = some ((chainPages repos).map CoordinatorStep.request ++
          (cloneuserrepos g user (chainItems repos)).map CoordinatorStep.instr) ∧
    cloneusergistsSteps fetchGists fuel g user
      = some ((chainPages gists).map CoordinatorStep.request ++
          (cloneusergists g user (chainItems gists)).map CoordinatorStep.instr) ∧
    cloneTeamReposSteps fetchRepos fuel g
      = some ((chainPages repos).map CoordinatorStep.request ++
          (cloneTeamRepos g (some (chainItems repos))).map CoordinatorStep.instr) ∧
    (chainPages repos).Nodup ∧ (chainPages gists).Nodup := by
  refine ⟨?_, ServesChain_nodup _ _ _ hu, by simp [chainPages], ?_,
    coordinatorSteps_chain _ _ _ _ hr hfr, coordinatorSteps_chain _ _ _ _ hr hfr,
    coordinatorSteps_chain _ _ _ _ hg hfg, coordinatorSteps_chain _ _ _ _ hr hfr,
    ServesChain_nodup _ _ _ hr, ServesChain_nodup _ _ _ hg⟩
  · have := listPages_chain fetchUsers users 0 fuel [] [] hu hfu
    simpa [listallusers] using this
  · cases users with
    | nil => exact absurd hu (by simp [ServesChain])
    | cons x rest => simp

theorem C11_listing_follows_pagination_witness :
    listallusers threePages 3
      = Listed.done [0, 2, 3]
          [⟨"ann".toList⟩, ⟨"bob".toList⟩, ⟨"cyd".toList⟩, ⟨"dan".toList⟩, ⟨"eve".toList⟩] :=
  (C11_listing_follows_pagination threePages (fun _ => some ([], 0)) (fun _ => some ([], 0))
    threePagesChain [(0, [])] [(0, [])] 3 0 "u".toList
    ⟨rfl, by decide, rfl, rfl, by decide, rfl, rfl, rfl⟩ ⟨rfl, rfl⟩
    ⟨rfl, rfl⟩ (by decide) (by decide) (by decide)).1

/-! ### C4: a failing retrieval -/

theorem Body.toJob_failed (g : Nat) (b : Body) : (b.toJob g).failed = false := by
  cases b <;> rfl

/-- A step of the main goroutine creates no failed job. -/
theorem stepMain_failed (cfg : RunConfig) (s t : Sys) (hs : stepMain cfg s = some t)
    (j : Job) (hj : j ∈ t.jobs) (hf : j.failed = true) : ∃ k ∈ s.jobs, k.failed = true := by
  unfold stepMain at hs
  split at hs
  · simp at hs
  · split at hs
    · simp only [Option.some.injEq] at hs
      subst hs
      exact ⟨j, hj, hf⟩
    · split at hs
      · simp only [Option.some.injEq] at hs
        subst hs
        rcases List.mem_append.mp hj with h1 | h1
        · exact ⟨j, h1, hf⟩
        · simp only [List.mem_singleton] at h1
          subst h1
          rw [Body.toJob_failed] at hf
          exact absurd hf (by simp)
      · simp at hs
  · split at hs
    · simp only [Option.some.injEq] at hs
      subst hs
      exact ⟨j, hj, hf⟩
    · simp at hs
  · simp only [Option.some.injEq] at hs
    subst hs
    exact ⟨j, hj, hf⟩
  · simp only [Option.some.injEq] at hs
    subst hs
    exact ⟨j, hj, hf⟩

/-- What a step of the main goroutine does to the program and the scan calls
while no scan call has been reached. -/
theorem stepMain_tail (cfg : RunConfig) (s t : Sys) (c : ScanCall)
    (hs : stepMain cfg s = some t)
    (h : s.scans = [] → ∃ front, s.prog = front ++ [Instr.scan c]) :
    t.scans = [] → ∃ front, t.prog = front ++ [Instr.scan c] := by
  have htail : ∀ (i : Instr) (rest : List Instr), (∀ call, i ≠ Instr.scan call) →
      (∃ front, i :: rest = front ++ [Instr.scan c]) →
      ∃ front, rest = front ++ [Instr.scan c] := by
    intro i rest hi hex
    obtain ⟨front, hfront⟩ := hex
    cases front with
    | nil =>
      simp only [List.nil_append, List.cons.injEq] at hfront
      exact absurd hfront.1 (hi c)
    | cons x f =>
      simp only [List.cons_append, List.cons.injEq] at hfront
      exact ⟨f, hfront.2⟩
  unfold stepMain at hs
  split at hs
  · simp at hs
  · rename_i body g rest hprog
    split at hs
    · simp only [Option.some.injEq] at hs
      subst hs
      exact h
    · split at hs
      · simp only [Option.some.injEq] at hs
        subst hs
        intro hsc
        have := h hsc
        rw [hprog] at this
        exact htail _ _ (by simp) this
      · simp at hs
  · rename_i g rest hprog
    split at hs
    · simp only [Option.some.injEq] at hs
      subst hs
      intro hsc
      have := h hsc
      rw [hprog] at this
      exact htail _ _ (by simp) this
    · simp at hs
  · simp only [Option.some.injEq] at hs
    subst hs
    intro hsc
    simp at hsc
  · simp only [Option.some.injEq] at hs
    subst hs
    exact h

/-- A step of a job leaves the program and the scan calls as they are, and
the only failed job it can create is the job itself, a `gitclone` that had
not run; the process has then ended. -/
theorem stepJob_frame (cfg : RunConfig) (s t : Sys) (i : Nat)
    (hs : stepJob cfg s i = some t) :
    t.prog = s.prog ∧ t.scans = s.scans ∧
    (∀ j ∈ t.jobs, j.failed = true → (∃ k ∈ s.jobs, k.failed = true) ∨
      (t.ended = true ∧ ∃ url dir w,
        s.jobs[i]? = some (Job.gitclone url dir w GitPc.spawned))) := by
  have hset : ∀ (new : Job) (j : Job), j ∈ s.jobs.set i new →
      j.failed = true → new.failed = false → ∃ k ∈ s.jobs, k.failed = true := by
    intro new j hj hf hnew
    rcases List.mem_or_eq_of_mem_set hj with h1 | h1
    · exact ⟨j, h1, hf⟩
    · subst h1
      rw [hnew] at hf
      exact absurd hf (by simp)
  unfold stepJob at hs
  cases hj : s.jobs[i]? with
  | none => rw [hj] at hs; simp at hs
  | some job =>
    rw [hj] at hs
    cases job with
    | executeclone repo dir g pc =>
      cases pc with
      | spawned =>
        simp only at hs
        split at hs <;> simp only [Option.some.injEq] at hs <;> subst hs <;>
          exact ⟨rfl, rfl, fun j hj hf => Or.inl (hset _ j hj hf rfl)⟩
      | reserving url =>
        simp only at hs
        split at hs
        · simp only [Option.some.injEq] at hs
          subst hs
          refine ⟨rfl, rfl, fun j hj hf => Or.inl ?_⟩
          rcases List.mem_append.mp hj with h1 | h1
          · exact hset _ j h1 hf rfl
          · simp only [List.mem_singleton] at h1
            subst h1
            exact absurd hf (by simp [Job.failed])
        · simp at hs
      | waiting =>
        simp only at hs
        split at hs
        · simp only [Option.some.injEq] at hs
          subst hs
          exact ⟨rfl, rfl, fun j hj hf => Or.inl (hset _ j hj hf rfl)⟩
        · simp at hs
      | returned =>
        simp only at hs
        split at hs
        · simp only [Option.some.injEq] at hs
          subst hs
          exact ⟨rfl, rfl, fun j hj hf => Or.inl (hset _ j hj hf rfl)⟩
        · simp at hs
      | finished => simp at hs
    | gitclone url dir w pc =>
      cases pc with
      | spawned =>
        simp only at hs
        split at hs
        · simp only [Option.some.injEq] at hs
          subst hs
          exact ⟨rfl, rfl, fun j hj hf => Or.inl (hset _ j hj hf rfl)⟩
        · simp only [Option.some.injEq] at hs
          subst hs
          exact ⟨rfl, rfl, fun j _ _ => Or.inr ⟨rfl, url, dir, w, rfl⟩⟩
      | returned =>
        simp only at hs
        split at hs
        · simp only [Option.some.injEq] at hs
          subst hs
          exact ⟨rfl, rfl, fun j hj hf => Or.inl (hset _ j hj hf rfl)⟩
        · simp at hs
      | failed => simp at hs
      | finished => simp at hs

/-- The invariant of the clone phase together with what a failed clone means:
the process has ended before any scan call, and while no scan call has been
reached the scan call `c` is still ahead of the main goroutine. -/
theorem failure_step (cfg : RunConfig) (c : ScanCall) (s t : Sys) (a : Action)
    (hinv : Inv s)
    (hfatal : (∃ j ∈ s.jobs, j.failed = true) → s.ended = true ∧ s.scans = [])
    (htail : s.scans = [] → ∃ front, s.prog = front ++ [Instr.scan c])
    (hs : step cfg s a = some t) :
    Inv t ∧ ((∃ j ∈ t.jobs, j.failed = true) → t.ended = true ∧ t.scans = []) ∧
      (t.scans = [] → ∃ front, t.prog = front ++ [Instr.scan c]) := by
  have hinv2 := Inv_step cfg s t a hinv hs
  unfold step at hs
  by_cases hend : s.ended = true
  · simp [hend] at hs
  · simp only [hend, if_false] at hs
    have hnofail : ¬ ∃ k ∈ s.jobs, k.failed = true := fun h => hend (hfatal h).1
    cases a with
    | main =>
      refine ⟨hinv2, ?_, stepMain_tail cfg s t c hs htail⟩
      rintro ⟨j, hj, hf⟩
      exact absurd (stepMain_failed cfg s t hs j hj hf) hnofail
    | job i =>
      obtain ⟨hprog, hscans, hfail⟩ := stepJob_frame cfg s t i hs
      refine ⟨hinv2, ?_, ?_⟩
      · rintro ⟨j, hj, hf⟩
        rcases hfail j hj hf with h1 | ⟨hended, url, dir, w, hjob⟩
        · exact absurd h1 hnofail
        · refine ⟨hended, ?_⟩
          rw [hscans]
          by_contra hne
          have := Inv.all_terminal s hinv hne _ (List.getElem?_mem hjob)
          simp [Job.terminal] at this
      · rw [hprog, hscans]
        exact htail

theorem failure_run (cfg : RunConfig) (c : ScanCall) (sched : List Action) :
    ∀ (s : Sys), Inv s →
      ((∃ j ∈ s.jobs, j.failed = true) → s.ended = true ∧ s.scans = []) →
      (s.scans = [] → ∃ front, s.prog = front ++ [Instr.scan c]) →
      Inv (run cfg s sched) ∧
      ((∃ j ∈ (run cfg s sched).jobs, j.failed = true) →
        (run cfg s sched).ended = true ∧ (run cfg s sched).scans = []) ∧
      ((run cfg s sched).scans = [] →
        ∃ front, (run cfg s sched).prog = front ++ [Instr.scan c]) := by
  induction sched with
  | nil => intro s h1 h2 h3; exact ⟨h1, h2, h3⟩
  | cons a as ih =>
    intro s h1 h2 h3
    cases hq : step cfg s a with
    | none =>
      have := ih s h1 h2 h3
      simpa [run, hq] using this
    | some t =>
      obtain ⟨k1, k2, k3⟩ := failure_step cfg c s t a h1 h2 h3 hq
      have := ih t k1 k2 k3
      simpa [run, hq] using this

theorem WellFormed_mainUser (user : Str) (userRepos : List Repository) (userGists : List Gist) :
    WellFormed (mainUser user userRepos userGists) := by
  unfold mainUser
  rw [List.append_assoc]
  exact WellFormed_cloneuserrepos _ _ _ _
    (WellFormed_cloneusergists _ _ _ _ ⟨rfl, trivial⟩)

/-- C4 (counterexample): pool width 10, a user with three gists of which the
clone of `g2` fails.  In the schedule in which the job of `g3` runs first and
the job of `g2` next, the process ends with the failure of `g2`: the job of the
sibling `g1` never runs, no scan call is reached and the main goroutine does
not get to `combineOutput`, whatever the scheduler picks afterwards. -/
theorem C4_counterexample_failed_clone_ends_process :
    (run secondGistFails (Sys.start (mainUser "u".toList [] threeGists)) g3ThenG2).jobs
      = [Job.gitclone "https://gist.github.com/g1.git".toList "/tmp/repos/users/u/g1".toList
           (WgRef.main 1) GitPc.spawned,
         Job.gitclone "https://gist.github.com/g2.git".toList "/tmp/repos/users/u/g2".toList
           (WgRef.main 1) GitPc.failed,
         Job.gitclone "https://gist.github.com/g3.git".toList "/tmp/repos/users/u/g3".toList
           (WgRef.main 1) GitPc.returned] ∧
    (run secondGistFails (Sys.start (mainUser "u".toList [] threeGists)) g3ThenG2).ended
      = true ∧
    (run secondGistFails (Sys.start (mainUser "u".toList [] threeGists)) g3ThenG2).scans
      = [] ∧
    (run secondGistFails (Sys.start (mainUser "u".toList [] threeGists)) g3ThenG2).prog
      = [Instr.wait 1, Instr.scan (ScanCall.scanforeachuser "u".toList)] ∧
    ¬ (run secondGistFails (Sys.start (mainUser "u".toList [] threeGists))
        g3ThenG2).atCombineOutput := by
  refine ⟨by decide, by decide, by decide, by decide, ?_⟩
  intro h
  exact absurd h.2 (by decide)

/-- C4 (amended): a retrieval failure is fatal to the run.  In every state `s`
that the user branch of `main` reaches, for every pool width, listing and
schedule: when the `git clone` of a submitted retrieval returns an error,
`gitclone` records nothing, `check` panics with the error and the step of the
job ends the process; and once a retrieval has failed the process has ended,
no scan call has been reached, the main goroutine has not got to
`combineOutput`, and no goroutine takes a further step, so the run does not
end with success.  Nothing is said of which sibling retrievals have run. -/
theorem C4_retrieval_failure_ends_process (cfg : RunConfig) (user : Str)
    (userRepos : List Repository) (userGists : List Gist) (sched : List Action) (s : Sys)
    (hs : s = run cfg (Sys.start (mainUser user userRepos userGists)) sched) :
    (∀ (i : Nat) (url dir : Str) (w : WgRef) (e : GoError), s.ended = false →
      s.jobs[i]? = some (Job.gitclone url dir w GitPc.spawned) → cfg.git url dir = some e →
      gitclone cfg.git url dir = Except.error e ∧
      ∃ t, step cfg s (Action.job i) = some t ∧ t.ended = true ∧
        t.jobs[i]? = some (Job.gitclone url dir w GitPc.failed)) ∧
    ((∃ j ∈ s.jobs, j.failed = true) →
      s.ended = true ∧ s.scans = [] ∧ ¬ s.atCombineOutput ∧ ∀ a, step cfg s a = none) := by
  constructor
  · intro i url dir w e hend hjob hgit
    have hg : gitclone cfg.git url dir = Except.error e := by simp [gitclone, check, hgit]
    have hlt : i < s.jobs.length := by
      rw [List.getElem?_eq_some_iff] at hjob
      exact hjob.1
    refine ⟨hg, { s with wg := s.wgDone w,
                         jobs := s.jobs.set i (Job.gitclone url dir w GitPc.failed),
                         ended := true }, ?_, rfl, ?_⟩
    · simp only [step, hend, Bool.false_eq_true, if_false, stepJob, hjob, hg]
    · simp [List.getElem?_set, hlt]
  · intro hfail
    have hstart := Inv_start _ (WellFormed_mainUser user userRepos userGists)
    obtain ⟨_, hfatal, htail⟩ := failure_run cfg (ScanCall.scanforeachuser user) sched
      (Sys.start (mainUser user userRepos userGists)) hstart
      (by rintro ⟨j, hj, _⟩; simp [Sys.start] at hj)
      (fun _ => ⟨cloneuserrepos 0 user userRepos ++ cloneusergists 1 user userGists, rfl⟩)
    rw [← hs] at hfatal htail
    obtain ⟨hended, hscans⟩ := hfatal hfail
    refine ⟨hended, hscans, ?_, ?_⟩
    · intro hat
      rw [hat.2] at hended
      exact absurd hended (by simp)
    · intro a
      simp [step, hended]

theorem C4_retrieval_failure_ends_process_witness :
    ((run secondGistFails (Sys.start (mainUser "u".toList [] threeGists)) g3ThenG2).ended
        = true ∧
      (run secondGistFails (Sys.start (mainUser "u".toList [] threeGists)) g3ThenG2).scans
        = [] ∧
      ¬ (run secondGistFails (Sys.start (mainUser "u".toList [] threeGists))
          g3ThenG2).atCombineOutput ∧
      ∀ a, step secondGistFails
        (run secondGistFails (Sys.start (mainUser "u".toList [] threeGists)) g3ThenG2) a
          = none) ∧
    (gitclone secondGistFails.git "https://gist.github.com/g2.git".toList
        "/tmp/repos/users/u/g2".toList = Except.error "exit status 128".toList ∧
      ∃ t, step secondGistFails
          (run secondGistFails (Sys.start (mainUser "u".toList [] threeGists))
            (g3ThenG2.take 8)) (Action.job 1) = some t ∧ t.ended = true ∧
        t.jobs[1]? = some (Job.gitclone "https://gist.github.com/g2.git".toList
          "/tmp/repos/users/u/g2".toList (WgRef.main 1) GitPc.failed)) :=
  ⟨(C4_retrieval_failure_ends_process secondGistFails "u".toList [] threeGists g3ThenG2 _
      rfl).2
      ⟨Job.gitclone "https://gist.github.com/g2.git".toList "/tmp/repos/users/u/g2".toList
        (WgRef.main 1) GitPc.failed, by decide, rfl⟩,
   (C4_retrieval_failure_ends_process secondGistFails "u".toList [] threeGists
      (g3ThenG2.take 8) _ rfl).1 1 "https://gist.github.com/g2.git".toList
      "/tmp/repos/users/u/g2".toList (WgRef.main 1) "exit status 128".toList
      (by decide) (by decide) (by decide)⟩

end GitAllSecrets
